import Mathlib

/-!
Verification development for the HybridTM translation-memory engine.

Modelling conventions, shared by all definitions below:

* JS strings are modelled as `List Char` (`Str`); the sources only ever
  compare, slice, concatenate and search strings, and every concrete input
  used in a witness is ASCII, where UTF-16 code units and Lean `Char`s agree.
* JS numbers are modelled as exact rationals (`ℚ`) or integers; all the
  arithmetic the claims mention (halving, percentages, clamping, `Math.round`)
  is exact at the scales involved, and `Math.round x` is `⌊x + 1/2⌋`
  (JS rounds halves toward +∞).
* The LanceDB table is a list of rows; `query().where(p).limit(n)` is
  `(rows.filter p).take n` in row order, `vectorSearch` results are passed in
  directly as the distance-annotated row list it returns, and SQL quote
  escaping round-trips (a `where` built from an escaped literal matches the
  unescaped value).
* External collaborators that the engine only calls through narrow interfaces
  (the embedder, the XML serializer `XMLElement.toString`, `Date.parse`,
  `Date.now`, the XML parser inside `Utils.buildXMLElement`, the JSONL line
  parser) are universally-quantified function parameters.
-/

abbrev Str := List Char

/-- Shorthand to write `Str` literals. -/
def cs (s : String) : Str := s.data

/-- The whitespace characters relevant to `String.prototype.trim` for the
ASCII inputs used here. -/
def isWhite (c : Char) : Bool := c == ' ' || c == '\t' || c == '\n' || c == '\r'

/-- JS `String.prototype.trim`. -/
def jsTrim (s : Str) : Str :=
  ((s.dropWhile isWhite).reverse.dropWhile isWhite).reverse

/-- JS `Math.round`: round to nearest, halves toward positive infinity. -/
def jround (q : ℚ) : ℤ := ⌊q + 1/2⌋

/-- JS `String.prototype.toLowerCase` restricted to the alphabets used here. -/
def jsToLower (s : Str) : Str := s.map Char.toLower

namespace MatchQuality

/-- `MatchQuality.PENALTY` (matchQuality.ts line 15). -/
def PENALTY : ℕ := 2

/-- JS `x.charAt(i)` as used inside `lcs`; the loops only ever evaluate it in
range, so the default is never compared against a real character. -/
def charAtD (x : Str) (i : ℕ) : Char := x.getD i 'A'

/-- The DP table of `MatchQuality.lcs` (matchQuality.ts lines 30-46):
`optf x y i j` is `opt[i][j]`, the length of the longest common suffix of
`x.take i` and `y.take j`. -/
def optf (x y : Str) : ℕ → ℕ → ℕ
  | i + 1, j + 1 => if charAtD x i = charAtD y j then optf x y i j + 1 else 0
  | _, _ => 0

/-- The scan of the DP table in `MatchQuality.lcs`: row-major iteration over
`i ∈ [1..m], j ∈ [1..n]` keeping the first strictly greatest `opt[i][j]`
together with its row index `mx`. -/
def lcsScan (x y : Str) : ℕ × ℕ :=
  (List.range' 1 x.length).foldl
    (fun acc i =>
      (List.range' 1 y.length).foldl
        (fun acc2 j => if optf x y i j > acc2.1 then (optf x y i j, i) else acc2)
        acc)
    (0, 0)

/-- `MatchQuality.lcs` (matchQuality.ts lines 23-56): the recovery loop
returns the characters `x[mx-max .. mx-1]`. -/
def lcs (x y : Str) : Str :=
  let s := lcsScan x y
  (x.take s.2).drop (s.2 - s.1)

/-- Removal of the first occurrence of `sub`:
`a.substring(0, idx) + a.substring(idx + sub.length)` with
`idx = a.indexOf(sub)` (matchQuality.ts lines 91-94). -/
def removeFirst : Str → Str → Str
  | [], _ => []
  | c :: t, sub =>
    if sub.isPrefixOf (c :: t) then (c :: t).drop sub.length
    else c :: removeFirst t sub

/-- The `while` loop of `MatchQuality.similarity` (matchQuality.ts lines
85-96), written with explicit fuel; `similarity` runs it with fuel
`a.length + 1`, which theorem `claimC10_similarity_terminates` proves
sufficient. The guard `lcs.length > longest * PENALTY / 100` is the exact
value of the JS float comparison, cleared of the division. -/
def simLoop (longest : ℕ) : ℕ → Str → Str → ℤ → Option (Str × ℤ)
  | 0, _, _, _ => none
  | fuel + 1, a, b, count =>
    let l := lcs a b
    if jsTrim l ≠ [] ∧ 100 * l.length > PENALTY * longest then
      simLoop longest fuel (removeFirst a l) (removeFirst b l) (count + 1)
    else some (a, count)

/-- `MatchQuality.similarity` (matchQuality.ts lines 64-104). -/
def similarity (x0 y0 : Str) : ℤ :=
  let x := jsTrim x0
  let y := jsTrim y0
  let longest := max x.length y.length
  if longest = 0 then 0
  else
    let a := if x.length = longest then x else y
    let b := if x.length = longest then y else x
    match simLoop longest (a.length + 1) a b (-1) with
    | some (a', count) =>
      let result : ℚ :=
        100 * ((longest : ℚ) - (a'.length : ℚ)) / (longest : ℚ)
          - (count : ℚ) * (PENALTY : ℚ)
      if result < 0 then 0 else jround result
    | none => 0

end MatchQuality

/-! Supporting lemmas for the `MatchQuality` claims. -/

theorem foldl_preserve {α : Type} {β : Type} (P : β → Prop) (f : β → α → β) :
    ∀ (l : List α) (init : β), P init → (∀ b a, a ∈ l → P b → P (f b a)) →
      P (l.foldl f init)
  | [], _, h0, _ => h0
  | a :: l, init, h0, hstep =>
    foldl_preserve P f l (f init a) (hstep init a (List.mem_cons_self a l) h0)
      (fun b a' ha' hb => hstep b a' (List.mem_cons_of_mem a ha') hb)

namespace MatchQuality

theorem optf_le_left (x y : Str) : ∀ i j, optf x y i j ≤ i
  | 0, _ => by simp [optf]
  | _ + 1, 0 => by simp [optf]
  | i + 1, j + 1 => by
    simp only [optf]
    split
    · exact Nat.succ_le_succ (optf_le_left x y i j)
    · exact Nat.zero_le _

theorem optf_le_right (x y : Str) : ∀ i j, optf x y i j ≤ j
  | 0, _ => by simp [optf]
  | _ + 1, 0 => by simp [optf]
  | i + 1, j + 1 => by
    simp only [optf]
    split
    · exact Nat.succ_le_succ (optf_le_right x y i j)
    · exact Nat.zero_le _

theorem charAtD_eq_getElem (x : Str) (i : ℕ) (h : i < x.length) :
    charAtD x i = x[i] := by
  simp [charAtD, List.getD_eq_getElem?_getD, List.getElem?_eq_getElem h]

theorem drop_take_eq_nil (x : Str) (i : ℕ) : (x.take i).drop i = [] := by
  apply List.drop_eq_nil_of_le
  simp [List.length_take]

/-- DP correctness used for the termination claim: the table entry `opt[i][j]`
measures a common suffix of `x.take i` and `y.take j`. -/
theorem optf_suffix (x y : Str) :
    ∀ i j, i ≤ x.length → j ≤ y.length →
      (x.take i).drop (i - optf x y i j) = (y.take j).drop (j - optf x y i j)
  | 0, j, _, _ => by
    simp only [optf, Nat.sub_zero, List.take_zero, List.drop_nil]
    exact (drop_take_eq_nil y j).symm
  | i + 1, 0, _, _ => by
    simp only [optf, Nat.sub_zero, List.take_zero, List.drop_nil]
    exact drop_take_eq_nil x (i + 1)
  | i + 1, j + 1, hi, hj => by
    have hi' : i < x.length := hi
    have hj' : j < y.length := hj
    simp only [optf]
    split
    · next hc =>
      have IH := optf_suffix x y i j (Nat.le_of_lt hi') (Nat.le_of_lt hj')
      have hk1 : i + 1 - (optf x y i j + 1) = i - optf x y i j :=
        Nat.succ_sub_succ i (optf x y i j)
      have hk2 : j + 1 - (optf x y i j + 1) = j - optf x y i j :=
        Nat.succ_sub_succ j (optf x y i j)
      rw [hk1, hk2, List.take_succ, List.take_succ,
        List.getElem?_eq_getElem hi', List.getElem?_eq_getElem hj']
      have hlx : i - optf x y i j ≤ (x.take i).length := by
        simp [List.length_take]
        omega
      have hly : j - optf x y i j ≤ (y.take j).length := by
        simp [List.length_take]
        omega
      rw [List.drop_append_of_le_length hlx, List.drop_append_of_le_length hly]
      rw [charAtD_eq_getElem x i hi', charAtD_eq_getElem y j hj'] at hc
      simp [IH, hc]
    · simp only [Nat.sub_zero]
      rw [drop_take_eq_nil x (i + 1), drop_take_eq_nil y (j + 1)]

/-- Invariant of the DP scan: the accumulator is either still the initial
`(0, 0)` or reports a real table entry together with its row index. -/
def scanInv (x y : Str) (acc : ℕ × ℕ) : Prop :=
  acc = (0, 0) ∨
    ∃ i j, acc = (optf x y i j, i) ∧ 0 < optf x y i j ∧
      1 ≤ i ∧ i ≤ x.length ∧ 1 ≤ j ∧ j ≤ y.length

theorem lcsScan_cases (x y : Str) : scanInv x y (lcsScan x y) := by
  unfold lcsScan
  refine foldl_preserve (scanInv x y) _ _ _ (Or.inl rfl) ?_
  intro b i hi hb
  refine foldl_preserve (scanInv x y) _ _ _ hb ?_
  intro b2 j hj hb2
  have hi' := List.mem_range'_1.mp hi
  have hj' := List.mem_range'_1.mp hj
  by_cases hgt : optf x y i j > b2.1
  · simp only [hgt, if_pos]
    exact Or.inr ⟨i, j, rfl, by omega, by omega, by omega, by omega, by omega⟩
  · simpa [hgt] using hb2

theorem lcs_infix_left (x y : Str) : lcs x y <:+: x := by
  refine ⟨(x.take (lcsScan x y).2).take ((lcsScan x y).2 - (lcsScan x y).1),
    x.drop (lcsScan x y).2, ?_⟩
  simp only [lcs]
  rw [List.take_append_drop, List.take_append_drop]

theorem lcs_infix_right (x y : Str) (h : lcs x y ≠ []) : lcs x y <:+: y := by
  rcases lcsScan_cases x y with h0 | ⟨i, j, hs, _, hi1, him, hj1, hjn⟩
  · exfalso
    apply h
    simp [lcs, h0]
  · have : lcs x y = (y.take j).drop (j - optf x y i j) := by
      simp only [lcs, hs]
      exact optf_suffix x y i j him hjn
    rw [this]
    refine ⟨(y.take j).take (j - optf x y i j), y.drop j, ?_⟩
    rw [List.take_append_drop, List.take_append_drop]

theorem removeFirst_length {s sub : Str} (hne : sub ≠ []) :
    ∀ _hinf : sub <:+: s, (removeFirst s sub).length + sub.length = s.length := by
  induction s with
  | nil =>
    intro hinf
    exact absurd (List.eq_nil_of_infix_nil hinf) hne
  | cons c t ih =>
    intro hinf
    by_cases hp : sub.isPrefixOf (c :: t)
    · simp only [removeFirst, hp, if_pos, List.length_drop]
      have hle : sub.length ≤ (c :: t).length :=
        List.IsPrefix.length_le (List.isPrefixOf_iff_prefix.mp hp)
      omega
    · have hp' : ¬ sub <+: (c :: t) := fun hpre =>
        hp (List.isPrefixOf_iff_prefix.mpr hpre)
      rcases List.infix_cons_iff.mp hinf with hpre | htail
      · exact absurd hpre hp'
      · simp [removeFirst, hp]
        have := ih htail
        omega

theorem removeFirst_length_lt {s sub : Str} (hne : sub ≠ []) (hinf : sub <:+: s) :
    (removeFirst s sub).length < s.length := by
  have h := removeFirst_length hne hinf
  have : 1 ≤ sub.length := List.length_pos.mpr hne
  omega

theorem lcs_ne_nil_of_trim {x y : Str} (h : jsTrim (lcs x y) ≠ []) : lcs x y ≠ [] := by
  intro hnil
  rw [hnil] at h
  exact h rfl

theorem simLoop_isSome (longest : ℕ) :
    ∀ fuel a b count, a.length < fuel → (simLoop longest fuel a b count).isSome
  | 0, a, _, _, h => absurd h (Nat.not_lt_zero _)
  | fuel + 1, a, b, count, h => by
    simp only [simLoop]
    split
    · next hguard =>
      have hne : lcs a b ≠ [] := lcs_ne_nil_of_trim hguard.1
      have hlt : (removeFirst a (lcs a b)).length < a.length :=
        removeFirst_length_lt hne (lcs_infix_left a b)
      exact simLoop_isSome longest fuel _ _ (count + 1) (by omega)
    · rfl

theorem optf_eq_zero_of_disjoint {x y : Str} (h : ∀ c ∈ x, c ∉ y) :
    ∀ i j, 1 ≤ i → i ≤ x.length → 1 ≤ j → j ≤ y.length → optf x y i j = 0 := by
  intro i j hi1 him hj1 hjn
  match i, j, hi1, hj1 with
  | i + 1, j + 1, _, _ =>
    simp only [optf]
    split
    · next hc =>
      exfalso
      have hix : i < x.length := him
      have hjy : j < y.length := hjn
      rw [charAtD_eq_getElem x i hix, charAtD_eq_getElem y j hjy] at hc
      exact h x[i] (List.getElem_mem hix) (hc ▸ List.getElem_mem hjy)
    · rfl

theorem lcs_eq_nil_of_disjoint {x y : Str} (h : ∀ c ∈ x, c ∉ y) : lcs x y = [] := by
  have hscan : lcsScan x y = (0, 0) := by
    rcases lcsScan_cases x y with h0 | ⟨i, j, hs, hpos, hi1, him, hj1, hjn⟩
    · exact h0
    · exfalso
      rw [optf_eq_zero_of_disjoint h i j hi1 him hj1 hjn] at hpos
      exact Nat.lt_irrefl 0 hpos
  simp [lcs, hscan]

end MatchQuality

/-! Claims C8 and C10: `MatchQuality.similarity`. -/

/-- C10: the LCS-removal loop of `MatchQuality.similarity` terminates on every
pair of inputs. Whenever the loop guard passes, the extracted longest common
substring is non-empty and occurs in both remaining strings, so removing it
strictly shortens both; consequently the fuel `a.length + 1` that `similarity`
supplies never runs out and `similarity` is a total function. -/
theorem claimC10_similarity_terminates :
    (∀ a b : Str, jsTrim (MatchQuality.lcs a b) ≠ [] →
      MatchQuality.lcs a b ≠ [] ∧
      MatchQuality.lcs a b <:+: a ∧
      MatchQuality.lcs a b <:+: b ∧
      (MatchQuality.removeFirst a (MatchQuality.lcs a b)).length < a.length ∧
      (MatchQuality.removeFirst b (MatchQuality.lcs a b)).length < b.length) ∧
    (∀ longest fuel a b count, a.length < fuel →
      (MatchQuality.simLoop longest fuel a b count).isSome) := by
  constructor
  · intro a b h
    have hne := MatchQuality.lcs_ne_nil_of_trim h
    have hinfa := MatchQuality.lcs_infix_left a b
    have hinfb := MatchQuality.lcs_infix_right a b hne
    exact ⟨hne, hinfa, hinfb, MatchQuality.removeFirst_length_lt hne hinfa,
      MatchQuality.removeFirst_length_lt hne hinfb⟩
  · intro longest fuel a b count h
    exact MatchQuality.simLoop_isSome longest fuel a b count h

/-- Witness for C10 at a concrete input where the guard passes and where the
loop is run with the fuel `similarity` would supply. -/
theorem claimC10_witness :
    (MatchQuality.lcs (cs "ab") (cs "ab") ≠ [] ∧
      (MatchQuality.removeFirst (cs "ab")
        (MatchQuality.lcs (cs "ab") (cs "ab"))).length < (cs "ab").length) ∧
    (MatchQuality.simLoop 2 3 (cs "ab") (cs "ab") (-1)).isSome := by
  have h := claimC10_similarity_terminates
  have h1 := h.1 (cs "ab") (cs "ab") (by decide)
  exact ⟨⟨h1.1, h1.2.2.2.1⟩, h.2 2 3 (cs "ab") (cs "ab") (-1) (by decide)⟩

/-- C8 counterexample: on disjoint inputs `similarity` returns 2, not 0 — the
loop counter starts at −1, so when no common substring is ever removed the
final formula contributes `−(−1)·PENALTY = 2`. The same happens for
`similarity "" y` with non-blank `y`. -/
theorem claimC8_counterexample :
    MatchQuality.similarity (cs "abc") (cs "xyz") = 2 ∧
    MatchQuality.similarity (cs "abc") (cs "xyz") ≠ 0 ∧
    MatchQuality.similarity (cs "") (cs "y") = 2 ∧
    MatchQuality.similarity (cs "") (cs "y") ≠ 0 := by
  have t1 : jsTrim (cs "abc") = cs "abc" := by decide
  have t2 : jsTrim (cs "xyz") = cs "xyz" := by decide
  have t3 : jsTrim (cs "") = cs "" := by decide
  have t4 : jsTrim (cs "y") = cs "y" := by decide
  have l1 : (cs "abc").length = 3 := by decide
  have l2 : (cs "xyz").length = 3 := by decide
  have l3 : (cs "").length = 0 := by decide
  have l4 : (cs "y").length = 1 := by decide
  have h1 : MatchQuality.simLoop 3 4 (cs "abc") (cs "xyz") (-1)
      = some (cs "abc", -1) := by decide
  have h2 : MatchQuality.simLoop 1 2 (cs "y") (cs "") (-1)
      = some (cs "y", -1) := by decide
  refine ⟨?e1, ?e2, ?e3, ?e4⟩
  case e1 =>
    simp only [MatchQuality.similarity, t1, t2, l1, l2]
    norm_num [h1, jround, l1, l2, MatchQuality.PENALTY]
  case e2 =>
    simp only [MatchQuality.similarity, t1, t2, l1, l2]
    norm_num [h1, jround, l1, l2, MatchQuality.PENALTY]
  case e3 =>
    simp only [MatchQuality.similarity, t3, t4, l3, l4]
    norm_num [h2, jround, l3, l4, MatchQuality.PENALTY]
  case e4 =>
    simp only [MatchQuality.similarity, t3, t4, l3, l4]
    norm_num [h2, jround, l3, l4, MatchQuality.PENALTY]

set_option maxHeartbeats 1000000 in
/-- C8 (amended): when the two inputs share no character after trimming (in
particular for disjoint strings, and for `""` against any `y`), `similarity`
returns `PENALTY = 2` — not 0 — as long as one trimmed side is non-empty; it
returns 0 only when both sides trim to whitespace. -/
theorem claimC8_amended_similarity_disjoint (x y : Str)
    (hdisj : ∀ c ∈ jsTrim x, c ∉ jsTrim y)
    (hpos : 0 < max (jsTrim x).length (jsTrim y).length) :
    MatchQuality.similarity x y = 2 := by
  have hL : ¬ (max (jsTrim x).length (jsTrim y).length = 0) := by omega
  by_cases hx : (jsTrim x).length = max (jsTrim x).length (jsTrim y).length
  · have hnil : MatchQuality.lcs (jsTrim x) (jsTrim y) = [] :=
      MatchQuality.lcs_eq_nil_of_disjoint hdisj
    have hloop : MatchQuality.simLoop (max (jsTrim x).length (jsTrim y).length)
        ((jsTrim x).length + 1) (jsTrim x) (jsTrim y) (-1)
        = some (jsTrim x, -1) := by
      rw [MatchQuality.simLoop]
      simp [hnil]
    have hcast : ((max (jsTrim x).length (jsTrim y).length : ℕ) : ℚ)
        = ((jsTrim x).length : ℚ) := by exact_mod_cast congrArg Nat.cast hx.symm
    simp only [MatchQuality.similarity, if_neg hL, if_pos hx]
    rw [hloop]
    norm_num [hcast, jround, MatchQuality.PENALTY]
  · have hy : (jsTrim y).length = max (jsTrim x).length (jsTrim y).length := by
      rcases max_choice (jsTrim x).length (jsTrim y).length with h | h
      · exact absurd h.symm hx
      · exact h.symm
    have hdisj' : ∀ c ∈ jsTrim y, c ∉ jsTrim x := fun c hcy hcx => hdisj c hcx hcy
    have hnil : MatchQuality.lcs (jsTrim y) (jsTrim x) = [] :=
      MatchQuality.lcs_eq_nil_of_disjoint hdisj'
    have hloop : MatchQuality.simLoop (max (jsTrim x).length (jsTrim y).length)
        ((jsTrim y).length + 1) (jsTrim y) (jsTrim x) (-1)
        = some (jsTrim y, -1) := by
      rw [MatchQuality.simLoop]
      simp [hnil]
    have hcast : ((max (jsTrim x).length (jsTrim y).length : ℕ) : ℚ)
        = ((jsTrim y).length : ℚ) := by exact_mod_cast congrArg Nat.cast hy.symm
    simp only [MatchQuality.similarity, if_neg hL, if_neg hx]
    rw [hloop]
    norm_num [hcast, jround, MatchQuality.PENALTY]

/-- Witness for the amended C8 at a concrete disjoint pair. -/
theorem claimC8_witness :
    (∀ c ∈ jsTrim (cs "ab"), c ∉ jsTrim (cs "cd")) ∧
    MatchQuality.similarity (cs "ab") (cs "cd") = 2 :=
  ⟨by decide,
    claimC8_amended_similarity_disjoint (cs "ab") (cs "cd") (by decide) (by decide)⟩

/-! XML model (typesxml trees as seen by the handlers) and `Utils.getPureText`
(utils.ts lines 17-33). -/

/-- An XML node: a text node or an element with a name, attributes and
content, mirroring the typesxml `TextNode`/`XMLElement` values the SAX
handlers build. -/
inductive XNode where
  | text (s : Str) : XNode
  | elem (name : Str) (attrs : List (Str × Str)) (content : List XNode) : XNode

/-- `XMLElement.getName` (text nodes never reach the name-dependent code). -/
def XNode.getName : XNode → Str
  | .text _ => []
  | .elem n _ _ => n

/-- `XMLElement.getContent`. -/
def XNode.getContent : XNode → List XNode
  | .text _ => []
  | .elem _ _ c => c

def XNode.isElem : XNode → Bool
  | .text _ => false
  | .elem _ _ _ => true

/-- `XMLElement.getChildren`: the element children, in document order. -/
def XNode.getChildren (n : XNode) : List XNode :=
  n.getContent.filter XNode.isElem

/-- `XMLElement.getChild`: first child element with the given name. -/
def XNode.getChild (n : XNode) (name : Str) : Option XNode :=
  n.getChildren.find? (fun c => decide (c.getName = name))

/-- `XMLElement.getAttribute(...)?.getValue()`. -/
def XNode.getAttribute (n : XNode) (a : Str) : Option Str :=
  match n with
  | .text _ => none
  | .elem _ attrs _ => (attrs.find? (fun p => decide (p.1 = a))).map (fun p => p.2)

mutual

/-- The `content.forEach` loop of `Utils.getPureText`: each content node
contributes its piece in order. -/
def pureTextContent : List XNode → Str
  | [] => []
  | n :: rest => pureTextPiece n ++ pureTextContent rest

/-- The loop body of `Utils.getPureText`: text nodes contribute their value,
`pc`/`mrk`/`hi` children contribute recursively, and every other element
(such as `cp`) contributes nothing. -/
def pureTextPiece : XNode → Str
  | .text s => s
  | .elem n _ c =>
    if n = cs "pc" ∨ n = cs "mrk" ∨ n = cs "hi" then pureTextContent c else []

end

/-- `Utils.getPureText` (utils.ts lines 17-33). -/
def getPureText (n : XNode) : Str := pureTextContent n.getContent

theorem pureTextContent_append (l1 l2 : List XNode) :
    pureTextContent (l1 ++ l2) = pureTextContent l1 ++ pureTextContent l2 := by
  induction l1 with
  | nil => simp [pureTextContent]
  | cons n rest ih => simp [pureTextContent, ih]

theorem jsTrim_eq_nil_iff (s : Str) : jsTrim s = [] ↔ ∀ c ∈ s, isWhite c := by
  unfold jsTrim
  rw [List.reverse_eq_nil_iff, List.dropWhile_eq_nil_iff]
  constructor
  · intro h c hc
    have hsplit : s.takeWhile isWhite ++ s.dropWhile isWhite = s :=
      List.takeWhile_append_dropWhile isWhite s
    rw [hsplit.symm] at hc
    rcases List.mem_append.mp hc with h1 | h2
    · exact List.mem_takeWhile_imp h1
    · exact h c (List.mem_reverse.mpr h2)
  · intro h x hx
    exact h x ((List.dropWhile_sublist isWhite).subset
      (by simpa using hx))

/-! Import options (importOptions.ts) and the XLIFF 2.x handler
(xliffHandler.ts). Metadata extraction (`extractMetadata`,
`applySegmentPosition`) only decorates entries and never influences which
entries are written, so the metadata payload is an abstract type `μ` and those
two functions are universally-quantified parameters. -/

inductive TranslationState where
  | initial
  | translated
  | reviewed
  | final
deriving DecidableEq

/-- `ResolvedImportOptions = Required<ImportOptions>` (importOptions.ts). -/
structure ResolvedImportOptions where
  minState : TranslationState
  skipEmpty : Bool
  skipUnconfirmed : Bool
  extractMetadata : Bool
deriving DecidableEq

/-- `DEFAULT_IMPORT_OPTIONS` (importOptions.ts). -/
def DEFAULT_IMPORT_OPTIONS : ResolvedImportOptions :=
  ⟨TranslationState.translated, true, true, true⟩

namespace XLIFFHandler

/-- The raw `state` attribute string, parsed against the four normalized
values, mirroring `isTranslationState` (xliffHandler.ts lines 622-627). -/
def parseTranslationState (s : Str) : Option TranslationState :=
  if s = cs "initial" then some TranslationState.initial
  else if s = cs "translated" then some TranslationState.translated
  else if s = cs "reviewed" then some TranslationState.reviewed
  else if s = cs "final" then some TranslationState.final
  else none

def isTranslationState (v : Option Str) : Bool :=
  (v.bind parseTranslationState).isSome

/-- `getStateRankFromOption` (xliffHandler.ts lines 604-620):
`initial` ranks 0, like an absent state. -/
def getStateRankFromOption : Option TranslationState → ℕ
  | none => 0
  | some TranslationState.initial => 0
  | some TranslationState.translated => 1
  | some TranslationState.reviewed => 2
  | some TranslationState.final => 3

/-- `getStateRank` (xliffHandler.ts lines 597-602). -/
def getStateRank (rawState : Option Str) : ℕ :=
  match rawState.bind parseTranslationState with
  | some t => getStateRankFromOption (some t)
  | none => 0

/-- The per-segment record assembled by `buildSegmentData`
(xliffHandler.ts lines 19-26). -/
structure SegmentData (μ : Type) where
  source : XNode
  target : XNode
  pureSource : Str
  pureTarget : Str
  metadata : Option μ
  segmentId : Option Str

/-- The JSONL record written by `writeEntry` (xliffHandler.ts lines 28-38). -/
structure HandlerEntry (μ : Type) where
  language : Str
  fileId : Str
  unitId : Str
  original : Str
  pureText : Str
  element : Str
  segmentIndex : ℤ
  segmentCount : ℤ
  metadata : Option μ

/-- The handler fields set while walking `<xliff>` and `<file>`. -/
structure HandlerCtx where
  srcLang : Str
  tgtLang : Str
  original : Str
  fileId : Str

variable {μ : Type}

/-- `buildSegmentData` (xliffHandler.ts lines 238-278). `extractMeta` stands
for `this.extractMetadata(unitId, unit, segment, rawState, segmentId)`. -/
def buildSegmentData (extractMeta : Str → XNode → XNode → Option Str → Option Str → μ)
    (opts : ResolvedImportOptions) (unitId : Str) (unit segment : XNode) :
    Option (SegmentData μ) :=
  match segment.getChild (cs "source"), segment.getChild (cs "target") with
  | some sourceElement, some targetElement =>
    let pureSource := getPureText sourceElement
    let pureTarget := getPureText targetElement
    if jsTrim pureSource = [] then none
    else if opts.skipEmpty ∧ jsTrim pureTarget = [] then none
    else
      let rawState := segment.getAttribute (cs "state")
      let stateRank := getStateRank rawState
      let minRank := getStateRankFromOption (some opts.minState)
      if 0 < stateRank ∧ stateRank < minRank then none
      else if stateRank = 0 ∧ opts.skipUnconfirmed then none
      else
        let segmentId := segment.getAttribute (cs "id")
        let metadata :=
          if opts.extractMetadata then
            some (extractMeta unitId unit segment rawState segmentId)
          else none
        some ⟨sourceElement, targetElement, pureSource, pureTarget, metadata, segmentId⟩
  | _, _ => none

/-- `buildSegments` (xliffHandler.ts lines 227-236). -/
def buildSegments (extractMeta : Str → XNode → XNode → Option Str → Option Str → μ)
    (opts : ResolvedImportOptions) (unitId : Str) (unit : XNode)
    (segmentElements : List XNode) : List (SegmentData μ) :=
  segmentElements.filterMap (buildSegmentData extractMeta opts unitId unit)

/-- `appendElementContent` (xliffHandler.ts lines 453-462) as content
concatenation: every content node is a text node or an element, and both are
copied. -/
def appendedContent (sources : List XNode) : List XNode :=
  sources.flatMap XNode.getContent

/-- `buildSingleSegment` (xliffHandler.ts lines 280-316). -/
def buildSingleSegment (extractMeta : Str → XNode → XNode → Option Str → Option Str → μ)
    (opts : ResolvedImportOptions) (unitId : Str) (unit : XNode) :
    Option (SegmentData μ) :=
  let parts := unit.getChildren.filter
    (fun child => decide (child.getName = cs "segment" ∨ child.getName = cs "ignorable"))
  let combinedSource := XNode.elem (cs "source") []
    (appendedContent (parts.filterMap (fun child => child.getChild (cs "source"))))
  let combinedTarget := XNode.elem (cs "target") []
    (appendedContent (parts.filterMap (fun child => child.getChild (cs "target"))))
  let pureSource := getPureText combinedSource
  let pureTarget := getPureText combinedTarget
  if jsTrim pureSource = [] then none
  else if opts.skipEmpty ∧ jsTrim pureTarget = [] then none
  else
    let metadata :=
      if opts.extractMetadata then some (extractMeta unitId unit unit none none)
      else none
    some ⟨combinedSource, combinedTarget, pureSource, pureTarget, metadata, none⟩

/-- `writeSegmentEntries` (xliffHandler.ts lines 318-350): one source-language
and one target-language entry per retained segment. `applyPos` stands for
`applySegmentPosition` and `serialize` for `XMLElement.toString`. -/
def writeSegmentEntries (serialize : XNode → Str)
    (applyPos : Str → Option Str → ℤ → ℤ → Option μ → Option μ)
    (ctx : HandlerCtx) (unitId : Str) (segmentIndex segmentCount : ℤ)
    (segment : SegmentData μ) : List (HandlerEntry μ) :=
  let metadata := applyPos unitId segment.segmentId segmentIndex segmentCount
    segment.metadata
  [⟨ctx.srcLang, ctx.fileId, unitId, ctx.original, segment.pureSource,
      serialize segment.source, segmentIndex, segmentCount, metadata⟩,
    ⟨ctx.tgtLang, ctx.fileId, unitId, ctx.original, segment.pureTarget,
      serialize segment.target, segmentIndex, segmentCount, metadata⟩]

/-- The synthetic `<source>` wrapper built at the top of `writeMergedEntry`
(xliffHandler.ts lines 389-395). -/
def mergedSource (segments : List (SegmentData μ)) : XNode :=
  XNode.elem (cs "source") [] (appendedContent (segments.map SegmentData.source))

/-- The synthetic `<target>` wrapper of `writeMergedEntry`. -/
def mergedTarget (segments : List (SegmentData μ)) : XNode :=
  XNode.elem (cs "target") [] (appendedContent (segments.map SegmentData.target))

/-- `writeMergedEntry` (xliffHandler.ts lines 388-427): the merged
`segmentIndex = 0` pair, skipped under the same emptiness rules as a
segment. -/
def writeMergedEntry (serialize : XNode → Str) (opts : ResolvedImportOptions)
    (ctx : HandlerCtx) (unitId : Str) (segments : List (SegmentData μ)) :
    List (HandlerEntry μ) :=
  if jsTrim (getPureText (mergedSource segments)) = [] then []
  else if opts.skipEmpty ∧ jsTrim (getPureText (mergedTarget segments)) = [] then []
  else
    [⟨ctx.srcLang, ctx.fileId, unitId, ctx.original,
        getPureText (mergedSource segments),
        serialize (mergedSource segments), 0, (segments.length : ℤ), none⟩,
      ⟨ctx.tgtLang, ctx.fileId, unitId, ctx.original,
        getPureText (mergedTarget segments),
        serialize (mergedTarget segments), 0, (segments.length : ℤ), none⟩]

/-- The `<segment>` children collected at the top of `processUnit`
(xliffHandler.ts line 200). -/
def segmentElementsOf (unit : XNode) : List XNode :=
  unit.getChildren.filter (fun child => decide (child.getName = cs "segment"))

/-- The `segments.forEach(...)` loop of `processUnit` (xliffHandler.ts lines
217-220): two entries per retained segment, with 1-based `segmentIndex`. -/
def segEntriesOf (serialize : XNode → Str)
    (applyPos : Str → Option Str → ℤ → ℤ → Option μ → Option μ)
    (ctx : HandlerCtx) (unitId : Str) (segments : List (SegmentData μ)) :
    List (HandlerEntry μ) :=
  segments.enum.flatMap
    (fun p => writeSegmentEntries serialize applyPos ctx unitId
      ((p.1 : ℤ) + 1) (segments.length : ℤ) p.2)

/-- `processUnit` (xliffHandler.ts lines 194-225); `none` models the
`Missing @id attribute in <unit>` throw, and the returned list is the
sequence of JSONL rows written for the unit, in order. -/
def processUnit (serialize : XNode → Str)
    (extractMeta : Str → XNode → XNode → Option Str → Option Str → μ)
    (applyPos : Str → Option Str → ℤ → ℤ → Option μ → Option μ)
    (opts : ResolvedImportOptions) (ctx : HandlerCtx) (unit : XNode) :
    Option (List (HandlerEntry μ)) :=
  match unit.getAttribute (cs "id") with
  | none => none
  | some unitId =>
    if (segmentElementsOf unit).length > 0 then
      if (buildSegments extractMeta opts unitId unit (segmentElementsOf unit)).length = 0 then
        some []
      else if (buildSegments extractMeta opts unitId unit (segmentElementsOf unit)).length > 1 then
        some (segEntriesOf serialize applyPos ctx unitId
            (buildSegments extractMeta opts unitId unit (segmentElementsOf unit))
          ++ writeMergedEntry serialize opts ctx unitId
            (buildSegments extractMeta opts unitId unit (segmentElementsOf unit)))
      else
        some (segEntriesOf serialize applyPos ctx unitId
          (buildSegments extractMeta opts unitId unit (segmentElementsOf unit)))
    else
      match buildSingleSegment extractMeta opts unitId unit with
      | none => some []
      | some fallback =>
        some (writeSegmentEntries serialize applyPos ctx unitId 1 1 fallback)

end XLIFFHandler

namespace XLIFFHandler

theorem buildSegmentData_spec {μ : Type}
    {extractMeta : Str → XNode → XNode → Option Str → Option Str → μ}
    {opts : ResolvedImportOptions} {unitId : Str} {unit segment : XNode}
    {sd : SegmentData μ}
    (h : buildSegmentData extractMeta opts unitId unit segment = some sd) :
    sd.pureSource = getPureText sd.source ∧
    sd.pureTarget = getPureText sd.target ∧
    jsTrim sd.pureSource ≠ [] ∧
    (opts.skipEmpty = true → jsTrim sd.pureTarget ≠ []) := by
  unfold buildSegmentData at h
  split at h
  · next se te hse hte =>
    simp only at h
    split at h
    · exact absurd h (by simp)
    · next hps =>
      split at h
      · exact absurd h (by simp)
      · next hpt =>
        split at h
        · exact absurd h (by simp)
        · split at h
          · exact absurd h (by simp)
          · rw [Option.some_inj] at h
            subst h
            refine ⟨rfl, rfl, hps, fun hse2 => ?_⟩
            intro hnil
            exact hpt ⟨hse2, hnil⟩
  · exact absurd h (by simp)

theorem writeSegmentEntries_length {μ : Type} (serialize : XNode → Str)
    (applyPos : Str → Option Str → ℤ → ℤ → Option μ → Option μ)
    (ctx : HandlerCtx) (unitId : Str) (i n : ℤ) (sd : SegmentData μ) :
    (writeSegmentEntries serialize applyPos ctx unitId i n sd).length = 2 := rfl

theorem flatMap_length_two {α β : Type} (l : List α) (f : α → List β)
    (h : ∀ a ∈ l, (f a).length = 2) : (l.flatMap f).length = 2 * l.length := by
  induction l with
  | nil => simp
  | cons a t ih =>
    have ha := h a (List.mem_cons_self a t)
    have ht := ih (fun x hx => h x (List.mem_cons_of_mem a hx))
    simp only [List.flatMap_cons, List.length_append, List.length_cons, ha, ht]
    omega

theorem pureTextContent_appendedContent (l : List XNode) :
    pureTextContent (appendedContent l) = (l.map getPureText).flatten := by
  induction l with
  | nil => simp [appendedContent, pureTextContent]
  | cons n rest ih =>
    simp only [appendedContent, List.flatMap_cons, List.map_cons, List.flatten_cons]
    rw [pureTextContent_append]
    simp only [appendedContent] at ih
    rw [ih]
    rfl

theorem jsTrim_flatten_ne_nil {l : List Str} {s : Str}
    (hs : s ∈ l) (hne : jsTrim s ≠ []) : jsTrim l.flatten ≠ [] := by
  intro hnil
  apply hne
  rw [jsTrim_eq_nil_iff] at hnil ⊢
  intro c hc
  exact hnil c (List.mem_flatten.mpr ⟨s, hs, hc⟩)

theorem writeMergedEntry_of_retained {μ : Type} (serialize : XNode → Str)
    (opts : ResolvedImportOptions) (ctx : HandlerCtx) (unitId : Str)
    (segments : List (SegmentData μ)) (sd0 : SegmentData μ) (h0 : sd0 ∈ segments)
    (hall : ∀ sd ∈ segments, jsTrim (getPureText sd.source) ≠ [] ∧
      (opts.skipEmpty = true → jsTrim (getPureText sd.target) ≠ [])) :
    (writeMergedEntry serialize opts ctx unitId segments).length = 2 ∧
    ∀ e ∈ writeMergedEntry serialize opts ctx unitId segments,
      e.segmentCount = (segments.length : ℤ) := by
  have hsrc : jsTrim (getPureText (mergedSource segments)) ≠ [] := by
    show jsTrim (pureTextContent (appendedContent (segments.map SegmentData.source))) ≠ []
    rw [pureTextContent_appendedContent, List.map_map]
    exact jsTrim_flatten_ne_nil (List.mem_map_of_mem _ h0) (hall sd0 h0).1
  have htgt : opts.skipEmpty = true → jsTrim (getPureText (mergedTarget segments)) ≠ [] := by
    intro hse
    show jsTrim (pureTextContent (appendedContent (segments.map SegmentData.target))) ≠ []
    rw [pureTextContent_appendedContent, List.map_map]
    exact jsTrim_flatten_ne_nil (List.mem_map_of_mem _ h0) ((hall sd0 h0).2 hse)
  unfold writeMergedEntry
  rw [if_neg hsrc, if_neg (fun hskip => (htgt hskip.1) hskip.2)]
  constructor
  · rfl
  · intro e he
    simp only [List.mem_cons, List.not_mem_nil, or_false] at he
    rcases he with he | he
    · rw [he]
    · rw [he]

end XLIFFHandler

namespace XLIFFHandler

theorem segEntriesOf_length {μ : Type} (serialize : XNode → Str)
    (applyPos : Str → Option Str → ℤ → ℤ → Option μ → Option μ)
    (ctx : HandlerCtx) (unitId : Str) (segments : List (SegmentData μ)) :
    (segEntriesOf serialize applyPos ctx unitId segments).length
      = 2 * segments.length := by
  unfold segEntriesOf
  rw [flatMap_length_two segments.enum
    (fun p => writeSegmentEntries serialize applyPos ctx unitId
      ((p.1 : ℤ) + 1) (segments.length : ℤ) p.2)
    (fun p _ => rfl)]
  rw [List.enum_length]

theorem segEntriesOf_segmentCount {μ : Type} (serialize : XNode → Str)
    (applyPos : Str → Option Str → ℤ → ℤ → Option μ → Option μ)
    (ctx : HandlerCtx) (unitId : Str) (segments : List (SegmentData μ)) :
    ∀ e ∈ segEntriesOf serialize applyPos ctx unitId segments,
      e.segmentCount = (segments.length : ℤ) := by
  intro e he
  unfold segEntriesOf at he
  rcases List.mem_flatMap.mp he with ⟨p, _, he2⟩
  simp only [writeSegmentEntries, List.mem_cons, List.not_mem_nil, or_false] at he2
  rcases he2 with he2 | he2
  · rw [he2]
  · rw [he2]

end XLIFFHandler

/-- C4: for every XLIFF unit that yields `N > 1` retained segments, the
handler writes the `2·N` per-segment entries and additionally the merged
source/target pair with `segmentIndex = 0`, for exactly `2·N + 2` JSONL rows,
each carrying `segmentCount = N`. -/
theorem claimC4_segmentation {μ : Type} (serialize : XNode → Str)
    (extractMeta : Str → XNode → XNode → Option Str → Option Str → μ)
    (applyPos : Str → Option Str → ℤ → ℤ → Option μ → Option μ)
    (opts : ResolvedImportOptions) (ctx : XLIFFHandler.HandlerCtx) (unit : XNode)
    (uid : Str) (entries : List (XLIFFHandler.HandlerEntry μ)) (N : ℕ)
    (hid : unit.getAttribute (cs "id") = some uid)
    (hproc : XLIFFHandler.processUnit serialize extractMeta applyPos opts ctx unit
      = some entries)
    (hN : (XLIFFHandler.buildSegments extractMeta opts uid unit
      (XLIFFHandler.segmentElementsOf unit)).length = N)
    (h1 : 1 < N) :
    entries.length = 2 * N + 2 ∧ ∀ e ∈ entries, e.segmentCount = (N : ℤ) := by
  have hElsPos : (XLIFFHandler.segmentElementsOf unit).length > 0 := by
    by_contra hc
    have hnil : XLIFFHandler.segmentElementsOf unit = [] :=
      List.length_eq_zero.mp (by omega)
    rw [hnil] at hN
    simp [XLIFFHandler.buildSegments] at hN
    omega
  unfold XLIFFHandler.processUnit at hproc
  simp only [hid] at hproc
  rw [hN] at hproc
  rw [if_pos hElsPos, if_neg (by omega : ¬ N = 0), if_pos h1] at hproc
  rw [Option.some_inj] at hproc
  subst hproc
  -- the retained segments and one of them
  have hall : ∀ sd ∈ XLIFFHandler.buildSegments extractMeta opts uid unit
      (XLIFFHandler.segmentElementsOf unit),
      jsTrim (getPureText sd.source) ≠ [] ∧
      (opts.skipEmpty = true → jsTrim (getPureText sd.target) ≠ []) := by
    intro sd hsd
    rcases List.mem_filterMap.mp hsd with ⟨el, _, hel⟩
    have hspec := XLIFFHandler.buildSegmentData_spec hel
    exact ⟨hspec.1 ▸ hspec.2.2.1, fun hse => hspec.2.1 ▸ hspec.2.2.2 hse⟩
  have hsegne : XLIFFHandler.buildSegments extractMeta opts uid unit
      (XLIFFHandler.segmentElementsOf unit) ≠ [] := by
    intro hc
    rw [hc] at hN
    simp at hN
    omega
  rcases List.exists_mem_of_ne_nil _ hsegne with ⟨sd0, hsd0⟩
  have hmerged := XLIFFHandler.writeMergedEntry_of_retained serialize opts ctx uid
    _ sd0 hsd0 hall
  constructor
  · rw [List.length_append, XLIFFHandler.segEntriesOf_length, hN, hmerged.1]
  · intro e he
    rcases List.mem_append.mp he with h | h
    · have := XLIFFHandler.segEntriesOf_segmentCount serialize applyPos ctx uid _ e h
      rw [this, hN]
    · have := hmerged.2 e h
      rw [this, hN]

/-- A concrete two-segment unit used to witness C4. -/
def c4Segment (src tgt : String) : XNode :=
  XNode.elem (cs "segment") [(cs "state", cs "translated")]
    [XNode.elem (cs "source") [] [XNode.text (cs src)],
      XNode.elem (cs "target") [] [XNode.text (cs tgt)]]

def c4Unit : XNode :=
  XNode.elem (cs "unit") [(cs "id", cs "u1")]
    [c4Segment "Hello" "Hola", c4Segment "World" "Mundo"]

/-- Witness for C4: a unit with two retained segments yields six entries, all
with `segmentCount = 2`. -/
theorem claimC4_witness :
    ∃ entries, XLIFFHandler.processUnit (fun _ => ([] : Str))
        (fun _ _ _ _ _ => ()) (fun _ _ _ _ m => m) DEFAULT_IMPORT_OPTIONS
        ⟨cs "en", cs "es", cs "demo.xlf", cs "f1"⟩ c4Unit = some entries ∧
      entries.length = 2 * 2 + 2 ∧ ∀ e ∈ entries, e.segmentCount = ((2 : ℕ) : ℤ) := by
  obtain ⟨entries, hproc⟩ : ∃ entries, XLIFFHandler.processUnit (fun _ => ([] : Str))
      (fun _ _ _ _ _ => ()) (fun _ _ _ _ m => m) DEFAULT_IMPORT_OPTIONS
      ⟨cs "en", cs "es", cs "demo.xlf", cs "f1"⟩ c4Unit = some entries := ⟨_, rfl⟩
  have h := claimC4_segmentation (fun _ => ([] : Str)) (fun _ _ _ _ _ => ())
    (fun _ _ _ _ m => m) DEFAULT_IMPORT_OPTIONS
    ⟨cs "en", cs "es", cs "demo.xlf", cs "f1"⟩ c4Unit (cs "u1") entries 2
    (by decide) hproc (by decide) (by omega)
  exact ⟨entries, hproc, h.1, h.2⟩

/-- C6 counterexample: a segment with the explicit state `initial` (rank 0,
below `minState = translated` of rank 1) is NOT skipped when
`skipUnconfirmed` is false — `buildSegmentData` only applies the `minState`
cut to ranks 1..3, and lumps `initial` together with the absent state. -/
theorem claimC6_counterexample :
    ((XNode.elem (cs "segment") [(cs "state", cs "initial")]
        [XNode.elem (cs "source") [] [XNode.text (cs "Hello")],
          XNode.elem (cs "target") [] [XNode.text (cs "Hola")]]).getAttribute
            (cs "state")).isSome = true ∧
    XLIFFHandler.getStateRank ((XNode.elem (cs "segment") [(cs "state", cs "initial")]
        [XNode.elem (cs "source") [] [XNode.text (cs "Hello")],
          XNode.elem (cs "target") [] [XNode.text (cs "Hola")]]).getAttribute
            (cs "state")) <
      XLIFFHandler.getStateRankFromOption (some TranslationState.translated) ∧
    (XLIFFHandler.buildSegmentData (fun _ _ _ _ _ => ())
      ⟨TranslationState.translated, true, false, false⟩ (cs "u1")
      (XNode.elem (cs "unit") [(cs "id", cs "u1")] [])
      (XNode.elem (cs "segment") [(cs "state", cs "initial")]
        [XNode.elem (cs "source") [] [XNode.text (cs "Hello")],
          XNode.elem (cs "target") [] [XNode.text (cs "Hola")]])).isSome = true := by
  refine ⟨rfl, by decide, ?_⟩
  rfl

/-- C6 (amended): for a segment that passes the source/target presence and
emptiness checks, `buildSegmentData` skips it exactly when either its explicit
state has positive rank (`translated`/`reviewed`/`final`) strictly below the
`minState` rank, or its state rank is 0 (absent, unrecognized, or the explicit
`initial`) and `skipUnconfirmed` is set. -/
theorem claimC6_amended_state_skip {μ : Type}
    (extractMeta : Str → XNode → XNode → Option Str → Option Str → μ)
    (opts : ResolvedImportOptions) (unitId : Str) (unit segment : XNode)
    (se te : XNode)
    (hse : segment.getChild (cs "source") = some se)
    (hte : segment.getChild (cs "target") = some te)
    (hps : jsTrim (getPureText se) ≠ [])
    (hpt : ¬ (opts.skipEmpty = true ∧ jsTrim (getPureText te) = [])) :
    XLIFFHandler.buildSegmentData extractMeta opts unitId unit segment = none ↔
      ((0 < XLIFFHandler.getStateRank (segment.getAttribute (cs "state")) ∧
        XLIFFHandler.getStateRank (segment.getAttribute (cs "state")) <
          XLIFFHandler.getStateRankFromOption (some opts.minState)) ∨
      (XLIFFHandler.getStateRank (segment.getAttribute (cs "state")) = 0 ∧
        opts.skipUnconfirmed = true)) := by
  simp only [XLIFFHandler.buildSegmentData, hse, hte]
  rw [if_neg hps, if_neg hpt]
  by_cases h1 : 0 < XLIFFHandler.getStateRank (segment.getAttribute (cs "state")) ∧
      XLIFFHandler.getStateRank (segment.getAttribute (cs "state")) <
        XLIFFHandler.getStateRankFromOption (some opts.minState)
  · rw [if_pos h1]
    simp [h1]
  · rw [if_neg h1]
    by_cases h2 : XLIFFHandler.getStateRank (segment.getAttribute (cs "state")) = 0 ∧
        opts.skipUnconfirmed = true
    · rw [if_pos h2]
      simp [h1, h2]
    · rw [if_neg h2]
      simp [h1, h2]

/-- Witness for the amended C6: an explicit `translated` state (rank 1) below
`minState = final` (rank 3) is skipped. -/
theorem claimC6_witness :
    XLIFFHandler.buildSegmentData (fun _ _ _ _ _ => ())
      ⟨TranslationState.final, true, false, false⟩ (cs "u1")
      (XNode.elem (cs "unit") [(cs "id", cs "u1")] [])
      (XNode.elem (cs "segment") [(cs "state", cs "translated")]
        [XNode.elem (cs "source") [] [XNode.text (cs "Hello")],
          XNode.elem (cs "target") [] [XNode.text (cs "Hola")]]) = none := by
  have h := claimC6_amended_state_skip (fun _ _ _ _ _ => ())
    ⟨TranslationState.final, true, false, false⟩ (cs "u1")
    (XNode.elem (cs "unit") [(cs "id", cs "u1")] [])
    (XNode.elem (cs "segment") [(cs "state", cs "translated")]
      [XNode.elem (cs "source") [] [XNode.text (cs "Hello")],
        XNode.elem (cs "target") [] [XNode.text (cs "Hola")]])
    (XNode.elem (cs "source") [] [XNode.text (cs "Hello")])
    (XNode.elem (cs "target") [] [XNode.text (cs "Hola")])
    rfl rfl (by decide) (by decide)
  exact h.mpr (Or.inl (by decide))

/-! The engine (hybridtm.ts): data model, metadata filter, target pairing,
scores, ranking, search, and upsert. -/

namespace HybridTM

/-- `metadata.segment` as far as the engine reads it: `metadataMatches` only
consults `provider` (hybridtm.ts lines 762-767). -/
structure SegmentMetadataM where
  provider : Option Str
deriving DecidableEq

/-- The hydrated `EntryMetadata` (langEntry.ts / `unflattenMetadata`,
hybridtm.ts lines 295-377): hydration only stores non-empty strings, so an
absent field and an empty string coincide as `none`. -/
structure EntryMetadata where
  state : Option TranslationState
  subState : Option Str
  quality : Option ℚ
  creationDate : Option Str
  creationId : Option Str
  changeDate : Option Str
  changeId : Option Str
  creationTool : Option Str
  creationToolVersion : Option Str
  context : Option Str
  notes : List Str
  usageCount : Option ℚ
  lastUsageDate : Option Str
  properties : Option (List (Str × Str))
  segment : Option SegmentMetadataM
deriving DecidableEq

/-- `{}` — the metadata of an entry that has none. -/
def emptyMetadata : EntryMetadata :=
  ⟨none, none, none, none, none, none, none, none, none, none, [], none, none,
    none, none⟩

/-- The hydrated row (`hydrateEntry`, hybridtm.ts lines 210-233); `dist` is
the `_distance` column reported by `vectorSearch` (absent on plain `query`
rows, in which case the engine falls back to 0). -/
structure LangEntry where
  id : Str
  language : Str
  pureText : Str
  element : Str
  fileId : Str
  original : Str
  unitId : Str
  vector : List ℚ
  segmentIndex : ℤ
  segmentCount : ℤ
  metadata : EntryMetadata
  dist : Option ℚ
deriving DecidableEq

/-- `MetadataFilter` (searchFilters.ts lines 15-22). -/
structure MetadataFilter where
  states : Option (List TranslationState)
  minState : Option TranslationState
  minQuality : Option ℚ
  contextIncludes : Option (List Str)
  requiredProperties : Option (List (Str × Str))
  provider : Option Str
deriving DecidableEq

/-- `TranslationSearchFilters` (searchFilters.ts lines 24-27). -/
structure TranslationSearchFilters where
  source : Option MetadataFilter
  target : Option MetadataFilter
deriving DecidableEq

/-- `getStateRank` of the engine (hybridtm.ts lines 772-788): unlike the
XLIFF handler's rank, absent is 0 and `initial` is 1. -/
def getStateRank : Option TranslationState → ℕ
  | none => 0
  | some TranslationState.initial => 1
  | some TranslationState.translated => 2
  | some TranslationState.reviewed => 3
  | some TranslationState.final => 4

/-- JS object property read `props[key]`. -/
def lookupProp (props : List (Str × Str)) (key : Str) : Option Str :=
  (props.find? (fun p => decide (p.1 = key))).map (fun p => p.2)

/-- `metadataMatches` (hybridtm.ts lines 716-770) for an entry whose
metadata object is present (every hydrated row has one). -/
def metadataMatches (metadata : EntryMetadata) (filter : MetadataFilter) : Bool :=
  (match filter.states with
    | some states =>
      if 0 < states.length then
        match metadata.state with
        | some st => states.contains st
        | none => false
      else true
    | none => true) &&
  (match filter.minState with
    | some ms =>
      !(decide (getStateRank metadata.state = 0) ||
        decide (getStateRank metadata.state < getStateRank (some ms)))
    | none => true) &&
  (match filter.minQuality with
    | some q =>
      match metadata.quality with
      | some mq => decide (q ≤ mq)
      | none => false
    | none => true) &&
  (match filter.contextIncludes with
    | some needles =>
      if 0 < needles.length then
        needles.all (fun needle =>
          decide (jsToLower needle <:+: jsToLower (metadata.context.getD [])))
      else true
    | none => true) &&
  (match filter.requiredProperties with
    | some reqs =>
      match metadata.properties with
      | some props => reqs.all (fun kv => decide (lookupProp props kv.1 = some kv.2))
      | none => false
    | none => true) &&
  (match filter.provider with
    | some pv =>
      match metadata.segment with
      | some sm =>
        match sm.provider with
        | some p => !(decide (p = [])) && decide (p = pv)
        | none => false
      | none => false
    | none => true)

/-- The `filters ? entries.filter(...) : entries` guard used throughout. -/
def matchesFilters (metadata : EntryMetadata) : Option MetadataFilter → Bool
  | none => true
  | some f => metadataMatches metadata f

/-- `buildEntryId` (hybridtm.ts lines 270-272). -/
def buildEntryId (fileId unitId : Str) (segmentIndex : ℤ) (lang : Str) : Str :=
  fileId ++ cs ":" ++ unitId ++ cs ":" ++ (toString segmentIndex).data ++ cs ":" ++ lang

/-- The survivors of the metadata filter inside `selectPreferredCandidate`
(hybridtm.ts lines 697-699). -/
def filteredCandidates (entries : List LangEntry) :
    Option MetadataFilter → List LangEntry
  | some f => entries.filter (fun e => metadataMatches e.metadata f)
  | none => entries

/-- The tail of `selectPreferredCandidate` (hybridtm.ts lines 709-713):
any segment-level entry, else the first row. -/
def selectSegmentOrFirst (filtered : List LangEntry) : Option LangEntry :=
  match filtered.find? (fun e => decide (0 < e.segmentIndex)) with
  | some seg => some seg
  | none => filtered.head?

/-- `selectPreferredCandidate` (hybridtm.ts lines 693-714). -/
def selectPreferredCandidate (entries : List LangEntry) (desired : ℤ)
    (filters : Option MetadataFilter) : Option LangEntry :=
  if entries.isEmpty then none
  else if (filteredCandidates entries filters).isEmpty then none
  else if 0 < desired then
    match (filteredCandidates entries filters).find?
        (fun e => decide (e.segmentIndex = desired)) with
    | some ex => some ex
    | none => selectSegmentOrFirst (filteredCandidates entries filters)
  else selectSegmentOrFirst (filteredCandidates entries filters)

/-- The rows returned by the exact-ID query of `findTargetEntry`
(hybridtm.ts lines 622-626); quote escaping round-trips, so the predicate is
equality with the built ID. -/
def exactMatchesOf (table : List LangEntry) (src : LangEntry) (tgtLang : Str) :
    List LangEntry :=
  table.filter (fun r =>
    decide (r.id = buildEntryId src.fileId src.unitId src.segmentIndex tgtLang))

/-- The rows returned by the unit-prefix query of `findTargetEntry`
(hybridtm.ts lines 632-639): `starts_with(id, "fileId:unitId:")` and language
equality, limited to 50 rows. -/
def unitMatchesOf (table : List LangEntry) (src : LangEntry) (tgtLang : Str) :
    List LangEntry :=
  (table.filter (fun r =>
    (src.fileId ++ cs ":" ++ src.unitId ++ cs ":").isPrefixOf r.id &&
      decide (r.language = tgtLang))).take 50

/-- `findTargetEntry` (hybridtm.ts lines 617-647). -/
def findTargetEntry (table : List LangEntry) (src : LangEntry) (tgtLang : Str)
    (filters : Option MetadataFilter) : Option LangEntry :=
  if src.fileId = [] ∨ src.unitId = [] then none
  else
    match selectPreferredCandidate (exactMatchesOf table src tgtLang)
        src.segmentIndex filters with
    | some ex => some ex
    | none =>
      if (unitMatchesOf table src tgtLang).isEmpty then none
      else selectPreferredCandidate (unitMatchesOf table src tgtLang)
        src.segmentIndex filters

end HybridTM

namespace HybridTM

/-- The semantic score of a candidate (hybridtm.ts lines 573-579):
`Math.max(0, Math.round((2 - l2Distance) / 2 * 100))`, with a missing or
unparsable `_distance` falling back to 0. -/
def semanticScoreOf (e : LangEntry) : ℤ :=
  max 0 (jround ((2 - e.dist.getD 0) / 2 * 100))

/-- The fuzzy score (hybridtm.ts line 580). -/
def fuzzyScoreOf (searchStr : Str) (e : LangEntry) : ℤ :=
  MatchQuality.similarity searchStr e.pureText

/-- The hybrid score of a candidate (hybridtm.ts line 581). -/
def hybridScoreOf (searchStr : Str) (e : LangEntry) : ℤ :=
  jround (((semanticScoreOf e : ℚ) + (fuzzyScoreOf searchStr e : ℚ)) / 2)

end HybridTM

/-- `Match` (match.ts lines 15-45); the `source`/`target` elements are kept
as their serialized strings. -/
structure Match where
  source : Str
  target : Str
  origin : Str
  semantic : ℤ
  fuzzy : ℤ
deriving DecidableEq

/-- `Match.hybridScore` (match.ts lines 41-43). -/
def Match.hybridScore (m : Match) : ℤ :=
  jround (((m.semantic : ℚ) + (m.fuzzy : ℚ)) / 2)

namespace HybridTM

/-- The `Match` built for an accepted candidate (hybridtm.ts lines 592-601). -/
def mkMatch (name searchStr : Str) (src tgt : LangEntry) : Match :=
  ⟨src.element, tgt.element, name, semanticScoreOf src, fuzzyScoreOf searchStr src⟩

/-- `parseMetadataTimestamp` (hybridtm.ts lines 685-691), with `Date.parse`
abstracted as `dateParse` (returning `none` for `NaN`). -/
def parseMetadataTimestamp (dateParse : Str → Option ℚ) : Option Str → Option ℚ
  | none => none
  | some v => if v = [] then none else dateParse v

/-- JS `a || b` over optional strings (empty strings are falsy). -/
def orElseNonempty : Option Str → Option Str → Option Str
  | some v, w => if v = [] then w else some v
  | none, w => w

/-- `computeRankingScore` (hybridtm.ts lines 649-683), with the clock
(`Date.now()`) abstracted as `now` in milliseconds. -/
def computeRankingScore (now : ℚ) (dateParse : Str → Option ℚ) (baseScore : ℤ)
    (sourceEntry targetEntry : LangEntry) : ℚ :=
  (baseScore : ℚ)
  + (if 0 < sourceEntry.segmentIndex ∧ 0 < targetEntry.segmentIndex then
      (if sourceEntry.segmentIndex = targetEntry.segmentIndex then 10 else 5)
    else 0)
  + (match targetEntry.metadata.quality with
    | some q => min (max q 0) 100 / 20
    | none => 0)
  + (match parseMetadataTimestamp dateParse
      (orElseNonempty targetEntry.metadata.changeDate
        targetEntry.metadata.creationDate) with
    | some ts =>
      if 0 ≤ (now - ts) / 86400000 then
        max 0 (1 - min ((now - ts) / 86400000) 365 / 365) * 5
      else 0
    | none => 0)
  + (match targetEntry.metadata.state with
    | some TranslationState.final => 3
    | some TranslationState.reviewed => 2
    | some TranslationState.translated => 1
    | _ => 0)

/-- The per-candidate body of the `for` loop in `semanticTranslationSearch`
(hybridtm.ts lines 563-608): `none` when the candidate contributes no ranked
match. `parseOk` abstracts whether `Utils.buildXMLElement` succeeds on a
serialized element (the `catch` drops the candidate). -/
def processCandidate (table : List LangEntry) (parseOk : Str → Bool) (now : ℚ)
    (dateParse : Str → Option ℚ) (name searchStr tgtLang : Str) (minScore : ℚ)
    (sourceCriteria targetCriteria : Option MetadataFilter)
    (sourceEntry : LangEntry) : Option (Match × ℚ) :=
  if sourceEntry.pureText = [] then none
  else if matchesFilters sourceEntry.metadata sourceCriteria = false then none
  else if ((hybridScoreOf searchStr sourceEntry : ℤ) : ℚ) < minScore then none
  else
    match findTargetEntry table sourceEntry tgtLang targetCriteria with
    | none => none
    | some targetEntry =>
      if matchesFilters targetEntry.metadata targetCriteria = false then none
      else if parseOk sourceEntry.element && parseOk targetEntry.element then
        some (mkMatch name searchStr sourceEntry targetEntry,
          computeRankingScore now dateParse
            (Match.hybridScore (mkMatch name searchStr sourceEntry targetEntry))
            sourceEntry targetEntry)
      else none

/-- Insertion step of the model of
`rankedMatches.sort((a, b) => b.score - a.score)`. -/
def insertRanked (p : Match × ℚ) : List (Match × ℚ) → List (Match × ℚ)
  | [] => [p]
  | q :: rest => if q.2 ≤ p.2 then p :: q :: rest else q :: insertRanked p rest

/-- The sort of `semanticTranslationSearch` (hybridtm.ts line 609), modelled
as an insertion sort by score descending; the claims only depend on the
output being ordered by score and a permutation of the input. -/
def sortRanked : List (Match × ℚ) → List (Match × ℚ)
  | [] => []
  | p :: rest => insertRanked p (sortRanked rest)

/-- `semanticTranslationSearch` (hybridtm.ts lines 547-615). The embedder and
the store are external: `vsResults` is the row list (with distances) that
`vectorSearch(queryEmbedding).where(language = srcLang)` returned, and
`table` is the row list the pairing queries run against. -/
def semanticTranslationSearch (table vsResults : List LangEntry)
    (parseOk : Str → Bool) (now : ℚ) (dateParse : Str → Option ℚ)
    (name searchStr tgtLang : Str) (minScore : ℚ) (limit : ℕ)
    (filters : TranslationSearchFilters) : List Match :=
  ((sortRanked (vsResults.filterMap
      (processCandidate table parseOk now dateParse name searchStr tgtLang
        minScore filters.source
        (match filters.target with
          | some t => some t
          | none => filters.source)))).take limit).map Prod.fst

end HybridTM

namespace HybridTM

theorem mem_insertRanked {p q : Match × ℚ} :
    ∀ l, q ∈ insertRanked p l ↔ q = p ∨ q ∈ l
  | [] => by simp [insertRanked]
  | r :: rest => by
    simp only [insertRanked]
    split
    · simp [List.mem_cons]
    · rw [List.mem_cons, List.mem_cons, mem_insertRanked rest]
      tauto

theorem mem_sortRanked {q : Match × ℚ} :
    ∀ l, q ∈ sortRanked l ↔ q ∈ l
  | [] => Iff.rfl
  | p :: rest => by
    rw [sortRanked, mem_insertRanked, List.mem_cons, mem_sortRanked rest]

theorem sorted_insertRanked (p : Match × ℚ) :
    ∀ l, List.Pairwise (fun a b : Match × ℚ => b.2 ≤ a.2) l →
      List.Pairwise (fun a b : Match × ℚ => b.2 ≤ a.2) (insertRanked p l)
  | [], _ => List.pairwise_singleton _ p
  | q :: rest, h => by
    rw [List.pairwise_cons] at h
    simp only [insertRanked]
    split
    · next hle =>
      rw [List.pairwise_cons]
      refine ⟨?_, List.pairwise_cons.mpr h⟩
      intro r hr
      rcases List.mem_cons.mp hr with rfl | hr2
      · exact hle
      · exact le_trans (h.1 r hr2) hle
    · next hgt =>
      rw [List.pairwise_cons]
      refine ⟨?_, sorted_insertRanked p rest h.2⟩
      intro r hr
      rcases (mem_insertRanked rest).mp hr with rfl | hr2
      · exact le_of_not_le hgt
      · exact h.1 r hr2

theorem sorted_sortRanked :
    ∀ l, List.Pairwise (fun a b : Match × ℚ => b.2 ≤ a.2) (sortRanked l)
  | [] => List.Pairwise.nil
  | p :: rest => sorted_insertRanked p (sortRanked rest) (sorted_sortRanked rest)

/-- The engine computes `Math.max(0, Math.round(q * 100))`; the spec writes
`round(max(0, q) * 100)`. The two agree on every rational. -/
theorem semanticScore_spec_formula (e : LangEntry) :
    semanticScoreOf e = jround (max 0 ((2 - e.dist.getD 0) / 2) * 100) := by
  unfold semanticScoreOf jround
  by_cases h : 0 ≤ (2 - e.dist.getD 0) / 2
  · rw [max_eq_right h, max_eq_right]
    apply Int.floor_nonneg.mpr
    have : 0 ≤ (2 - e.dist.getD 0) / 2 * 100 := by positivity
    linarith
  · push_neg at h
    rw [max_eq_left (le_of_lt h)]
    have h1 : (2 - e.dist.getD 0) / 2 * 100 + 1/2 ≤ 1/2 := by nlinarith
    have h2 : (⌊(2 - e.dist.getD 0) / 2 * 100 + 1/2⌋ : ℤ) ≤ ⌊(1/2 : ℚ)⌋ :=
      Int.floor_le_floor h1
    have h3 : (⌊(1/2 : ℚ)⌋ : ℤ) = 0 := by norm_num
    rw [max_eq_left (by omega)]
    norm_num

theorem processCandidate_some_spec {table : List LangEntry}
    {parseOk : Str → Bool} {now : ℚ} {dateParse : Str → Option ℚ}
    {name searchStr tgtLang : Str} {minScore : ℚ}
    {sourceCriteria targetCriteria : Option MetadataFilter}
    {e : LangEntry} {p : Match × ℚ}
    (h : processCandidate table parseOk now dateParse name searchStr tgtLang
      minScore sourceCriteria targetCriteria e = some p) :
    p.1.semantic = semanticScoreOf e ∧
    p.1.fuzzy = fuzzyScoreOf searchStr e ∧
    p.1.hybridScore = hybridScoreOf searchStr e ∧
    minScore ≤ ((hybridScoreOf searchStr e : ℤ) : ℚ) := by
  unfold processCandidate at h
  split at h
  · exact absurd h (by simp)
  · split at h
    · exact absurd h (by simp)
    · split at h
      · exact absurd h (by simp)
      · next hthr =>
        split at h
        · exact absurd h (by simp)
        · split at h
          · exact absurd h (by simp)
          · split at h
            · rw [Option.some_inj] at h
              subst h
              exact ⟨rfl, rfl, rfl, le_of_not_lt hthr⟩
            · exact absurd h (by simp)

end HybridTM

/-- C1: every match returned by `semanticTranslationSearch` carries the
semantic score `round(max(0, (2 − d)/2)·100)` of some vector-search candidate
with reported distance `d`, the fuzzy score
`MatchQuality.similarity(queryText, candidate.pureText)`, and a hybrid score
`round((semantic + fuzzy)/2)` at or above `minScore`; candidates whose hybrid
score falls below `minScore` contribute no match. -/
theorem claimC1_threshold_and_scores (table vsResults : List HybridTM.LangEntry)
    (parseOk : Str → Bool) (now : ℚ) (dateParse : Str → Option ℚ)
    (name searchStr tgtLang : Str) (minScore : ℚ) (limit : ℕ)
    (filters : HybridTM.TranslationSearchFilters) :
    (∀ m ∈ HybridTM.semanticTranslationSearch table vsResults parseOk now
        dateParse name searchStr tgtLang minScore limit filters,
      ∃ e ∈ vsResults,
        m.semantic = jround (max 0 ((2 - e.dist.getD 0) / 2) * 100) ∧
        m.fuzzy = MatchQuality.similarity searchStr e.pureText ∧
        m.hybridScore = jround (((m.semantic : ℚ) + (m.fuzzy : ℚ)) / 2) ∧
        minScore ≤ (m.hybridScore : ℚ)) ∧
    (∀ e ∈ vsResults,
      ((HybridTM.hybridScoreOf searchStr e : ℤ) : ℚ) < minScore →
      HybridTM.processCandidate table parseOk now dateParse name searchStr
        tgtLang minScore filters.source
        (match filters.target with
          | some t => some t
          | none => filters.source) e = none) := by
  constructor
  · intro m hm
    unfold HybridTM.semanticTranslationSearch at hm
    rcases List.mem_map.mp hm with ⟨p, hp, rfl⟩
    have hp2 := List.mem_of_mem_take hp
    rw [HybridTM.mem_sortRanked] at hp2
    rcases List.mem_filterMap.mp hp2 with ⟨e, he, hpe⟩
    have hspec := HybridTM.processCandidate_some_spec hpe
    refine ⟨e, he, ?_, ?_, ?_, ?_⟩
    · rw [hspec.1, HybridTM.semanticScore_spec_formula]
    · exact hspec.2.1
    · rfl
    · rw [hspec.2.2.1]
      exact hspec.2.2.2
  · intro e _ hlt
    unfold HybridTM.processCandidate
    split
    · rfl
    · split
      · rfl
      · rfl

/-- The source-side row used to witness C1 and C3. -/
def c1Source : HybridTM.LangEntry :=
  ⟨cs "f:u:1:en", cs "en", cs "Hello", cs "srcxml", cs "f", cs "demo.xlf",
    cs "u", [], 1, 1, HybridTM.emptyMetadata, some 0⟩

/-- The target-side row used to witness C1 and C3. -/
def c1Target : HybridTM.LangEntry :=
  ⟨cs "f:u:1:es", cs "es", cs "Hola", cs "tgtxml", cs "f", cs "demo.xlf",
    cs "u", [], 1, 1, HybridTM.emptyMetadata, none⟩

/-- Witness for C1 at a one-candidate store: the query "Hello" at distance 0
is paired with its Spanish sibling and returned with semantic = fuzzy =
hybrid = 100 ≥ minScore = 0. -/
theorem claimC1_witness :
    ∃ m ∈ HybridTM.semanticTranslationSearch [c1Target] [c1Source]
        (fun _ => true) 0 (fun _ => none) (cs "tm") (cs "Hello") (cs "es") 0 100
        ⟨none, none⟩,
      ∃ e ∈ [c1Source],
        m.semantic = jround (max 0 ((2 - e.dist.getD 0) / 2) * 100) ∧
        m.fuzzy = MatchQuality.similarity (cs "Hello") e.pureText ∧
        m.hybridScore = jround (((m.semantic : ℚ) + (m.fuzzy : ℚ)) / 2) ∧
        (0 : ℚ) ≤ (m.hybridScore : ℚ) := by
  have hsim : MatchQuality.similarity (cs "Hello") (cs "Hello") = 100 := by
    have t1 : jsTrim (cs "Hello") = cs "Hello" := by decide
    have l1 : (cs "Hello").length = 5 := by decide
    have l0 : (cs "").length = 0 := by decide
    have hl : MatchQuality.simLoop 5 6 (cs "Hello") (cs "Hello") (-1)
        = some (cs "", 0) := by decide
    simp only [MatchQuality.similarity, t1, l1]
    norm_num [hl, jround, l0, l1, MatchQuality.PENALTY]
  have hfz : HybridTM.fuzzyScoreOf (cs "Hello") c1Source = 100 := hsim
  have hsem : HybridTM.semanticScoreOf c1Source = 100 := by
    simp only [HybridTM.semanticScoreOf, c1Source]
    norm_num [jround]
  have hhyb : HybridTM.hybridScoreOf (cs "Hello") c1Source = 100 := by
    rw [HybridTM.hybridScoreOf, hsem, hfz]
    norm_num [jround]
  have htarget : HybridTM.findTargetEntry [c1Target] c1Source (cs "es") none
      = some c1Target := by decide
  have hproc : HybridTM.processCandidate [c1Target] (fun _ => true) 0
      (fun _ => none) (cs "tm") (cs "Hello") (cs "es") 0 none none c1Source
      = some (HybridTM.mkMatch (cs "tm") (cs "Hello") c1Source c1Target,
          HybridTM.computeRankingScore 0 (fun _ => none)
            (Match.hybridScore
              (HybridTM.mkMatch (cs "tm") (cs "Hello") c1Source c1Target))
            c1Source c1Target) := by
    unfold HybridTM.processCandidate
    rw [if_neg (by decide), if_neg (by decide), if_neg (by rw [hhyb]; norm_num),
      htarget]
    rfl
  have hrun : HybridTM.semanticTranslationSearch [c1Target] [c1Source]
      (fun _ => true) 0 (fun _ => none) (cs "tm") (cs "Hello") (cs "es") 0 100
      ⟨none, none⟩
      = [HybridTM.mkMatch (cs "tm") (cs "Hello") c1Source c1Target] := by
    unfold HybridTM.semanticTranslationSearch
    rw [List.filterMap_cons]
    simp only [hproc, List.filterMap_nil]
    rw [HybridTM.sortRanked, HybridTM.sortRanked, HybridTM.insertRanked]
    rfl
  refine ⟨HybridTM.mkMatch (cs "tm") (cs "Hello") c1Source c1Target, ?_, ?_⟩
  · rw [hrun]
    exact List.mem_singleton.mpr rfl
  · exact (claimC1_threshold_and_scores [c1Target] [c1Source] (fun _ => true) 0
      (fun _ => none) (cs "tm") (cs "Hello") (cs "es") 0 100 ⟨none, none⟩).1
      (HybridTM.mkMatch (cs "tm") (cs "Hello") c1Source c1Target)
      (by rw [hrun]; exact List.mem_singleton.mpr rfl)

/-- The ranking score exactly as claim C2 words it: hybrid score, plus the
segment-index bonus, plus `clamp(quality,0,100)/20`, plus a recency bonus
linear from 5 at age 0 days to 0 at 365 days, plus the state bonus. -/
def rankingScoreClaim (now : ℚ) (dateParse : Str → Option ℚ) (hybrid : ℤ)
    (src tgt : HybridTM.LangEntry) : ℚ :=
  (hybrid : ℚ)
  + (if 0 < src.segmentIndex ∧ 0 < tgt.segmentIndex then
      (if src.segmentIndex = tgt.segmentIndex then 10 else 5)
    else 0)
  + (match tgt.metadata.quality with
    | some q => min (max q 0) 100 / 20
    | none => 0)
  + (match HybridTM.parseMetadataTimestamp dateParse
      (HybridTM.orElseNonempty tgt.metadata.changeDate
        tgt.metadata.creationDate) with
    | some ts =>
      if 0 ≤ (now - ts) / 86400000 then
        5 * (1 - min ((now - ts) / 86400000) 365 / 365)
      else 0
    | none => 0)
  + (match tgt.metadata.state with
    | some TranslationState.final => 3
    | some TranslationState.reviewed => 2
    | some TranslationState.translated => 1
    | _ => 0)

/-- C2: the ranking score of `semanticTranslationSearch` is exactly the
claimed formula (hybrid + segment-index bonus + quality/20 + linear recency
bonus + state bonus), the accepted candidates are sorted by that score in
descending order, and at most `limit` matches are returned. -/
theorem claimC2_ranking_sort_limit :
    (∀ (now : ℚ) (dateParse : Str → Option ℚ) (hybrid : ℤ)
        (src tgt : HybridTM.LangEntry),
      HybridTM.computeRankingScore now dateParse hybrid src tgt =
        rankingScoreClaim now dateParse hybrid src tgt) ∧
    (∀ l : List (Match × ℚ),
      List.Pairwise (fun a b : Match × ℚ => b.2 ≤ a.2)
        (HybridTM.sortRanked l)) ∧
    (∀ (table vsResults : List HybridTM.LangEntry) (parseOk : Str → Bool)
        (now : ℚ) (dateParse : Str → Option ℚ) (name searchStr tgtLang : Str)
        (minScore : ℚ) (limit : ℕ)
        (filters : HybridTM.TranslationSearchFilters),
      (HybridTM.semanticTranslationSearch table vsResults parseOk now dateParse
        name searchStr tgtLang minScore limit filters).length ≤ limit ∧
      HybridTM.semanticTranslationSearch table vsResults parseOk now dateParse
          name searchStr tgtLang minScore limit filters =
        ((HybridTM.sortRanked (vsResults.filterMap
          (HybridTM.processCandidate table parseOk now dateParse name searchStr
            tgtLang minScore filters.source
            (match filters.target with
              | some t => some t
              | none => filters.source)))).take limit).map Prod.fst) := by
  refine ⟨?_, HybridTM.sorted_sortRanked, ?_⟩
  · intro now dateParse hybrid src tgt
    unfold HybridTM.computeRankingScore rankingScoreClaim
    congr 1
    congr 1
    cases hts : HybridTM.parseMetadataTimestamp dateParse
        (HybridTM.orElseNonempty tgt.metadata.changeDate
          tgt.metadata.creationDate) with
    | none => rfl
    | some ts =>
      simp only
      split
      · have h1 : min ((now - ts) / 86400000) 365 ≤ 365 := min_le_right _ _
        have h2 : min ((now - ts) / 86400000) 365 / 365 ≤ 1 := by
          rw [div_le_one (by norm_num : (0:ℚ) < 365)]
          exact h1
        rw [max_eq_right (by linarith)]
        ring
      · rfl
  · intro table vsResults parseOk now dateParse name searchStr tgtLang minScore
      limit filters
    constructor
    · unfold HybridTM.semanticTranslationSearch
      rw [List.length_map]
      exact List.length_take_le _ _
    · rfl

namespace HybridTM

theorem mem_filteredCandidates {r : LangEntry} {entries : List LangEntry}
    {filters : Option MetadataFilter} :
    r ∈ filteredCandidates entries filters ↔
      r ∈ entries ∧ matchesFilters r.metadata filters = true := by
  cases filters with
  | none => simp [filteredCandidates, matchesFilters]
  | some f => simp [filteredCandidates, matchesFilters, List.mem_filter]

theorem filteredCandidates_nil {entries : List LangEntry}
    {filters : Option MetadataFilter} (h : entries = []) :
    filteredCandidates entries filters = [] := by
  cases filters <;> simp [filteredCandidates, h]

theorem selectSegmentOrFirst_mem {filtered : List LangEntry}
    (h : filtered ≠ []) :
    ∃ r, selectSegmentOrFirst filtered = some r ∧ r ∈ filtered := by
  unfold selectSegmentOrFirst
  cases hf : filtered.find? (fun e => decide (0 < e.segmentIndex)) with
  | some seg => exact ⟨seg, rfl, List.mem_of_find?_eq_some hf⟩
  | none =>
    cases filtered with
    | nil => exact absurd rfl h
    | cons a t => exact ⟨a, rfl, List.mem_cons_self a t⟩

theorem selectPreferredCandidate_mem {entries : List LangEntry} {desired : ℤ}
    {filters : Option MetadataFilter}
    (h : filteredCandidates entries filters ≠ []) :
    ∃ r, selectPreferredCandidate entries desired filters = some r ∧
      r ∈ filteredCandidates entries filters := by
  have hents : ¬ entries.isEmpty := by
    intro hc
    exact h (filteredCandidates_nil (List.isEmpty_iff.mp hc))
  have hfilt : ¬ (filteredCandidates entries filters).isEmpty := by
    intro hc
    exact h (List.isEmpty_iff.mp hc)
  unfold selectPreferredCandidate
  rw [if_neg hents, if_neg hfilt]
  split
  · cases hf : (filteredCandidates entries filters).find?
        (fun e => decide (e.segmentIndex = desired)) with
    | some ex => exact ⟨ex, rfl, List.mem_of_find?_eq_some hf⟩
    | none => exact selectSegmentOrFirst_mem h
  · exact selectSegmentOrFirst_mem h

theorem selectPreferredCandidate_none_iff {entries : List LangEntry}
    {desired : ℤ} {filters : Option MetadataFilter} :
    selectPreferredCandidate entries desired filters = none ↔
      filteredCandidates entries filters = [] := by
  constructor
  · intro hnone
    by_contra hne
    rcases @selectPreferredCandidate_mem entries desired filters hne with ⟨r, hr, _⟩
    rw [hnone] at hr
    exact Option.noConfusion hr
  · intro hnil
    have hfilt : (filteredCandidates entries filters).isEmpty :=
      List.isEmpty_iff.mpr hnil
    unfold selectPreferredCandidate
    by_cases hents : entries.isEmpty
    · rw [if_pos hents]
    · rw [if_neg hents, if_pos hfilt]

end HybridTM

/-- C3: target pairing. (A) entries with a falsy fileId/unitId pair to
nothing; (B) when some row with the exact ID
`fileId:unitId:segmentIndex:tgtLang` passes the target filter, the pairing
returns such a row (exact-ID rows are preferred over unit-prefix fallbacks);
(C) when no exact-ID row passes the filter, the pairing is decided by the
unit-prefix query (`starts_with(id, "fileId:unitId:") AND language = tgtLang`,
limit 50) through the same preference selection; (D) that selection returns
nothing iff no row survives the filter, prefers a row with the source's
segmentIndex when the source's index is positive, otherwise any row with a
positive index, otherwise the first surviving row; (E) a candidate whose
pairing returns nothing contributes no match. -/
theorem claimC3_target_pairing :
    (∀ (table : List HybridTM.LangEntry) (src : HybridTM.LangEntry)
        (tgtLang : Str) (filters : Option HybridTM.MetadataFilter),
      (src.fileId = [] ∨ src.unitId = []) →
      HybridTM.findTargetEntry table src tgtLang filters = none) ∧
    (∀ (table : List HybridTM.LangEntry) (src : HybridTM.LangEntry)
        (tgtLang : Str) (filters : Option HybridTM.MetadataFilter),
      ¬ (src.fileId = [] ∨ src.unitId = []) →
      (∃ r ∈ table,
        r.id = HybridTM.buildEntryId src.fileId src.unitId src.segmentIndex
          tgtLang ∧
        HybridTM.matchesFilters r.metadata filters = true) →
      ∃ r, HybridTM.findTargetEntry table src tgtLang filters = some r ∧
        r.id = HybridTM.buildEntryId src.fileId src.unitId src.segmentIndex
          tgtLang ∧
        HybridTM.matchesFilters r.metadata filters = true) ∧
    (∀ (table : List HybridTM.LangEntry) (src : HybridTM.LangEntry)
        (tgtLang : Str) (filters : Option HybridTM.MetadataFilter),
      ¬ (src.fileId = [] ∨ src.unitId = []) →
      (∀ r ∈ table,
        r.id = HybridTM.buildEntryId src.fileId src.unitId src.segmentIndex
          tgtLang →
        HybridTM.matchesFilters r.metadata filters = false) →
      HybridTM.findTargetEntry table src tgtLang filters =
        HybridTM.selectPreferredCandidate
          (HybridTM.unitMatchesOf table src tgtLang) src.segmentIndex filters) ∧
    (∀ (entries : List HybridTM.LangEntry) (desired : ℤ)
        (filters : Option HybridTM.MetadataFilter),
      (HybridTM.selectPreferredCandidate entries desired filters = none ↔
        HybridTM.filteredCandidates entries filters = []) ∧
      (0 < desired →
        (∃ e ∈ HybridTM.filteredCandidates entries filters,
          e.segmentIndex = desired) →
        ∃ r, HybridTM.selectPreferredCandidate entries desired filters = some r ∧
          r.segmentIndex = desired) ∧
      ((0 < desired →
        ∀ e ∈ HybridTM.filteredCandidates entries filters,
          e.segmentIndex ≠ desired) →
        (∃ e ∈ HybridTM.filteredCandidates entries filters,
          0 < e.segmentIndex) →
        ∃ r, HybridTM.selectPreferredCandidate entries desired filters = some r ∧
          0 < r.segmentIndex) ∧
      ((∀ e ∈ HybridTM.filteredCandidates entries filters,
          ¬ 0 < e.segmentIndex) →
        HybridTM.filteredCandidates entries filters ≠ [] →
        HybridTM.selectPreferredCandidate entries desired filters =
          (HybridTM.filteredCandidates entries filters).head?)) ∧
    (∀ (table : List HybridTM.LangEntry) (parseOk : Str → Bool) (now : ℚ)
        (dateParse : Str → Option ℚ) (name searchStr tgtLang : Str)
        (minScore : ℚ) (sourceCriteria targetCriteria :
          Option HybridTM.MetadataFilter) (src : HybridTM.LangEntry),
      HybridTM.findTargetEntry table src tgtLang targetCriteria = none →
      HybridTM.processCandidate table parseOk now dateParse name searchStr
        tgtLang minScore sourceCriteria targetCriteria src = none) := by
  refine ⟨?_, ?_, ?_, ?_, ?_⟩
  · intro table src tgtLang filters h
    unfold HybridTM.findTargetEntry
    rw [if_pos h]
  · intro table src tgtLang filters hguard ⟨r0, hr0, hid0, hfl0⟩
    have hmem : r0 ∈ HybridTM.filteredCandidates
        (HybridTM.exactMatchesOf table src tgtLang) filters := by
      rw [HybridTM.mem_filteredCandidates]
      refine ⟨?_, hfl0⟩
      unfold HybridTM.exactMatchesOf
      rw [List.mem_filter]
      exact ⟨hr0, by simp [hid0]⟩
    have hne : HybridTM.filteredCandidates
        (HybridTM.exactMatchesOf table src tgtLang) filters ≠ [] :=
      List.ne_nil_of_mem hmem
    rcases HybridTM.selectPreferredCandidate_mem hne with ⟨r, hr, hrmem⟩
    unfold HybridTM.findTargetEntry
    rw [if_neg hguard, hr]
    rw [HybridTM.mem_filteredCandidates] at hrmem
    have hrid : r.id = HybridTM.buildEntryId src.fileId src.unitId
        src.segmentIndex tgtLang := by
      have := hrmem.1
      unfold HybridTM.exactMatchesOf at this
      rw [List.mem_filter] at this
      simpa using this.2
    exact ⟨r, rfl, hrid, hrmem.2⟩
  · intro table src tgtLang filters hguard hnone
    have hnil : HybridTM.filteredCandidates
        (HybridTM.exactMatchesOf table src tgtLang) filters = [] := by
      by_contra hc
      rcases List.exists_mem_of_ne_nil _ hc with ⟨r, hr⟩
      rw [HybridTM.mem_filteredCandidates] at hr
      have hrt := hr.1
      unfold HybridTM.exactMatchesOf at hrt
      rw [List.mem_filter] at hrt
      have hid : r.id = HybridTM.buildEntryId src.fileId src.unitId
          src.segmentIndex tgtLang := by simpa using hrt.2
      have := hnone r hrt.1 hid
      rw [hr.2] at this
      exact Bool.noConfusion this
    have hsel : HybridTM.selectPreferredCandidate
        (HybridTM.exactMatchesOf table src tgtLang) src.segmentIndex filters
        = none := HybridTM.selectPreferredCandidate_none_iff.mpr hnil
    unfold HybridTM.findTargetEntry
    rw [if_neg hguard, hsel]
    by_cases hu : (HybridTM.unitMatchesOf table src tgtLang).isEmpty
    · rw [if_pos hu]
      exact (HybridTM.selectPreferredCandidate_none_iff.mpr
        (HybridTM.filteredCandidates_nil (List.isEmpty_iff.mp hu))).symm
    · rw [if_neg hu]
  · intro entries desired filters
    refine ⟨HybridTM.selectPreferredCandidate_none_iff, ?_, ?_, ?_⟩
    · intro hdes ⟨e, he, heq⟩
      have hne : HybridTM.filteredCandidates entries filters ≠ [] :=
        List.ne_nil_of_mem he
      have hents : ¬ entries.isEmpty := by
        intro hc
        exact hne (HybridTM.filteredCandidates_nil (List.isEmpty_iff.mp hc))
      have hfilt : ¬ (HybridTM.filteredCandidates entries filters).isEmpty :=
        fun hc => hne (List.isEmpty_iff.mp hc)
      unfold HybridTM.selectPreferredCandidate
      rw [if_neg hents, if_neg hfilt, if_pos hdes]
      have hsome : ((HybridTM.filteredCandidates entries filters).find?
          (fun x => decide (x.segmentIndex = desired))).isSome := by
        rw [List.find?_isSome]
        exact ⟨e, he, by simp [heq]⟩
      cases hf : (HybridTM.filteredCandidates entries filters).find?
          (fun x => decide (x.segmentIndex = desired)) with
      | none => rw [hf] at hsome; exact absurd hsome (by simp)
      | some ex =>
        have hex := List.find?_some hf
        exact ⟨ex, rfl, by simpa using hex⟩
    · intro hnosame ⟨e, he, hepos⟩
      have hne : HybridTM.filteredCandidates entries filters ≠ [] :=
        List.ne_nil_of_mem he
      have hents : ¬ entries.isEmpty := by
        intro hc
        exact hne (HybridTM.filteredCandidates_nil (List.isEmpty_iff.mp hc))
      have hfilt : ¬ (HybridTM.filteredCandidates entries filters).isEmpty :=
        fun hc => hne (List.isEmpty_iff.mp hc)
      have hseg : ∃ r, HybridTM.selectSegmentOrFirst
          (HybridTM.filteredCandidates entries filters) = some r ∧
          0 < r.segmentIndex := by
        unfold HybridTM.selectSegmentOrFirst
        have hsome : ((HybridTM.filteredCandidates entries filters).find?
            (fun x => decide (0 < x.segmentIndex))).isSome := by
          rw [List.find?_isSome]
          exact ⟨e, he, by simp [hepos]⟩
        cases hf : (HybridTM.filteredCandidates entries filters).find?
            (fun x => decide (0 < x.segmentIndex)) with
        | none => rw [hf] at hsome; exact absurd hsome (by simp)
        | some seg =>
          have hseg2 := List.find?_some hf
          exact ⟨seg, rfl, by simpa using hseg2⟩
      unfold HybridTM.selectPreferredCandidate
      rw [if_neg hents, if_neg hfilt]
      by_cases hdes : 0 < desired
      · rw [if_pos hdes]
        have hfnone : (HybridTM.filteredCandidates entries filters).find?
            (fun x => decide (x.segmentIndex = desired)) = none := by
          rw [List.find?_eq_none]
          intro x hx
          simp [hnosame hdes x hx]
        rw [hfnone]
        exact hseg
      · rw [if_neg hdes]
        exact hseg
    · intro hallnp hne
      have hents : ¬ entries.isEmpty := by
        intro hc
        exact hne (HybridTM.filteredCandidates_nil (List.isEmpty_iff.mp hc))
      have hfilt : ¬ (HybridTM.filteredCandidates entries filters).isEmpty :=
        fun hc => hne (List.isEmpty_iff.mp hc)
      have hsegfirst : HybridTM.selectSegmentOrFirst
          (HybridTM.filteredCandidates entries filters) =
          (HybridTM.filteredCandidates entries filters).head? := by
        unfold HybridTM.selectSegmentOrFirst
        have hfnone : (HybridTM.filteredCandidates entries filters).find?
            (fun x => decide (0 < x.segmentIndex)) = none := by
          rw [List.find?_eq_none]
          intro x hx
          simp [hallnp x hx]
        rw [hfnone]
      unfold HybridTM.selectPreferredCandidate
      rw [if_neg hents, if_neg hfilt]
      by_cases hdes : 0 < desired
      · rw [if_pos hdes]
        have hfnone : (HybridTM.filteredCandidates entries filters).find?
            (fun x => decide (x.segmentIndex = desired)) = none := by
          rw [List.find?_eq_none]
          intro x hx
          have := hallnp x hx
          intro hc
          rw [decide_eq_true_iff] at hc
          omega
        rw [hfnone]
        exact hsegfirst
      · rw [if_neg hdes]
        exact hsegfirst
  · intro table parseOk now dateParse name searchStr tgtLang minScore
      sourceCriteria targetCriteria src h
    unfold HybridTM.processCandidate
    split
    · rfl
    · split
      · rfl
      · split
        · rfl
        · rw [h]

/-- Witness for C3: in a one-row table holding the exact-ID Spanish sibling,
the pairing returns it. -/
theorem claimC3_witness :
    ∃ r, HybridTM.findTargetEntry [c1Target] c1Source (cs "es") none = some r ∧
      r.id = HybridTM.buildEntryId c1Source.fileId c1Source.unitId
        c1Source.segmentIndex (cs "es") ∧
      HybridTM.matchesFilters r.metadata none = true :=
  claimC3_target_pairing.2.1 [c1Target] c1Source (cs "es") none (by decide)
    ⟨c1Target, by decide, by decide, by decide⟩

namespace HybridTM

/-- Modelled from the spec: `Utils.replaceQuotes` is called by the engine
(hybridtm.ts lines 808-809) but its definition is not among the sources here;
following the spec's escaping convention (`escapeLiteral`, which doubles
single quotes for SQL string literals), it doubles every single quote. -/
def replaceQuotes (s : Str) : Str :=
  s.flatMap (fun c => if c = '\'' then [c, c] else [c])

/-- The canonical ID `storeLangEntry` builds from its sanitized arguments
(hybridtm.ts lines 808-812). -/
def storedEntryId (fileId unitId : Str) (segmentIndex : ℤ) (lang : Str) : Str :=
  buildEntryId (replaceQuotes fileId) (replaceQuotes unitId) segmentIndex lang

/-- The no-write test of `storeLangEntry` (hybridtm.ts lines 818-829): an
existing first row with the same ID whose `pureText`, serialized `element`
and `original` all match. -/
def storedContentUnchanged (table : List LangEntry)
    (entryId pureText element original : Str) : Bool :=
  match (table.filter (fun r => decide (r.id = entryId))).head? with
  | some e =>
    decide (e.pureText = pureText) && decide (e.element = element) &&
      decide (e.original = original)
  | none => false

/-- Embedding generation (hybridtm.ts lines 832-837): use the provided
vector when non-empty, else call the embedder; the second component counts
embedder calls. -/
def embedOrProvided (embed : Str → List ℚ) (pureText : Str) :
    Option (List ℚ) → List ℚ × ℕ
  | some v => if 0 < v.length then (v, 0) else (embed pureText, 1)
  | none => (embed pureText, 1)

/-- The row inserted by `storeLangEntry` (hybridtm.ts lines 839-851). -/
def storedRow (embed : Str → List ℚ) (fileId original unitId lang pureText
    element : Str) (embeddings : Option (List ℚ))
    (segmentIndex segmentCount : ℤ) (metadata : Option EntryMetadata) :
    LangEntry :=
  ⟨storedEntryId fileId unitId segmentIndex lang, lang, pureText, element,
    replaceQuotes fileId, original, replaceQuotes unitId,
    (embedOrProvided embed pureText embeddings).1, segmentIndex,
    (if 0 < segmentCount then segmentCount else 1),
    metadata.getD emptyMetadata, none⟩

/-- `storeLangEntry` (hybridtm.ts lines 794-865): returns the table after the
call together with the number of embedder calls made. The delete removes
every row with the canonical ID and the insert appends the new row. -/
def storeLangEntry (embed : Str → List ℚ) (table : List LangEntry)
    (fileId original unitId lang pureText element : Str)
    (embeddings : Option (List ℚ)) (segmentIndex segmentCount : ℤ)
    (metadata : Option EntryMetadata) : List LangEntry × ℕ :=
  if storedContentUnchanged table (storedEntryId fileId unitId segmentIndex lang)
      pureText element original then
    (table, 0)
  else
    (table.filter (fun r =>
        !(decide (r.id = storedEntryId fileId unitId segmentIndex lang)))
      ++ [storedRow embed fileId original unitId lang pureText element
          embeddings segmentIndex segmentCount metadata],
      (embedOrProvided embed pureText embeddings).2)

theorem filter_eq_of_filter_ne (table : List LangEntry) (entryId : Str) :
    (table.filter (fun r => !(decide (r.id = entryId)))).filter
      (fun r => decide (r.id = entryId)) = [] := by
  induction table with
  | nil => rfl
  | cons a t ih =>
    by_cases h : a.id = entryId
    · simp [List.filter_cons, h, ih]
    · simp [List.filter_cons, h, ih]

end HybridTM

/-- C5: `storeLangEntry` is idempotent on unchanged content. When a row with
the canonical ID already exists and its `pureText`, serialized `element` and
`original` all equal the arguments, the call returns the table unchanged with
no embedder call (no delete, no re-embed, no insert — row count and stored
vectors untouched); otherwise it deletes every row with that ID and appends
the freshly built row. Consequently a second call with identical arguments
is always a no-op. -/
theorem claimC5_upsert_idempotent (embed : Str → List ℚ)
    (table : List HybridTM.LangEntry)
    (fileId original unitId lang pureText element : Str)
    (embeddings : Option (List ℚ)) (segmentIndex segmentCount : ℤ)
    (metadata : Option HybridTM.EntryMetadata) :
    (HybridTM.storedContentUnchanged table
        (HybridTM.storedEntryId fileId unitId segmentIndex lang)
        pureText element original = true →
      HybridTM.storeLangEntry embed table fileId original unitId lang pureText
        element embeddings segmentIndex segmentCount metadata = (table, 0)) ∧
    (HybridTM.storedContentUnchanged table
        (HybridTM.storedEntryId fileId unitId segmentIndex lang)
        pureText element original = false →
      HybridTM.storeLangEntry embed table fileId original unitId lang pureText
          element embeddings segmentIndex segmentCount metadata =
        (table.filter (fun r => !(decide (r.id =
            HybridTM.storedEntryId fileId unitId segmentIndex lang)))
          ++ [HybridTM.storedRow embed fileId original unitId lang pureText
              element embeddings segmentIndex segmentCount metadata],
          (HybridTM.embedOrProvided embed pureText embeddings).2)) ∧
    HybridTM.storeLangEntry embed
        (HybridTM.storeLangEntry embed table fileId original unitId lang
          pureText element embeddings segmentIndex segmentCount metadata).1
        fileId original unitId lang pureText element embeddings segmentIndex
        segmentCount metadata =
      ((HybridTM.storeLangEntry embed table fileId original unitId lang
          pureText element embeddings segmentIndex segmentCount metadata).1,
        0) := by
  refine ⟨?_, ?_, ?_⟩
  · intro h
    unfold HybridTM.storeLangEntry
    rw [if_pos h]
  · intro h
    unfold HybridTM.storeLangEntry
    rw [if_neg (by simp [h])]
  · by_cases h : HybridTM.storedContentUnchanged table
        (HybridTM.storedEntryId fileId unitId segmentIndex lang)
        pureText element original = true
    · unfold HybridTM.storeLangEntry
      rw [if_pos h]
      rw [if_pos h]
    · rw [Bool.not_eq_true] at h
      have hres : (HybridTM.storeLangEntry embed table fileId original unitId
          lang pureText element embeddings segmentIndex segmentCount
          metadata).1 =
          table.filter (fun r => !(decide (r.id =
            HybridTM.storedEntryId fileId unitId segmentIndex lang)))
          ++ [HybridTM.storedRow embed fileId original unitId lang pureText
              element embeddings segmentIndex segmentCount metadata] := by
        unfold HybridTM.storeLangEntry
        rw [if_neg (by simp [h])]
      have hunch : HybridTM.storedContentUnchanged
          (table.filter (fun r => !(decide (r.id =
            HybridTM.storedEntryId fileId unitId segmentIndex lang)))
          ++ [HybridTM.storedRow embed fileId original unitId lang pureText
              element embeddings segmentIndex segmentCount metadata])
          (HybridTM.storedEntryId fileId unitId segmentIndex lang)
          pureText element original = true := by
        unfold HybridTM.storedContentUnchanged
        rw [List.filter_append, HybridTM.filter_eq_of_filter_ne]
        simp [HybridTM.storedRow, HybridTM.storedEntryId]
      rw [hres]
      unfold HybridTM.storeLangEntry
      rw [if_pos hunch]

/-- A pre-existing row used to witness C5. -/
def c5Row : HybridTM.LangEntry :=
  ⟨cs "f:u:0:en", cs "en", cs "Hi", cs "el", cs "f", cs "o", cs "u", [], 0, 1,
    HybridTM.emptyMetadata, none⟩

/-- Witness for C5: with the same content the call is a no-op; with changed
content the row is replaced; repeating either call changes nothing. -/
theorem claimC5_witness :
    HybridTM.storeLangEntry (fun _ => []) [c5Row] (cs "f") (cs "o") (cs "u")
        (cs "en") (cs "Hi") (cs "el") none 0 1 none = ([c5Row], 0) ∧
    HybridTM.storeLangEntry (fun _ => []) [c5Row] (cs "f") (cs "o") (cs "u")
        (cs "en") (cs "Bye") (cs "el") none 0 1 none =
      ([c5Row].filter (fun r => !(decide (r.id =
          HybridTM.storedEntryId (cs "f") (cs "u") 0 (cs "en"))))
        ++ [HybridTM.storedRow (fun _ => []) (cs "f") (cs "o") (cs "u")
            (cs "en") (cs "Bye") (cs "el") none 0 1 none],
        (HybridTM.embedOrProvided (fun _ => []) (cs "Bye") none).2) ∧
    HybridTM.storeLangEntry (fun _ => [])
        (HybridTM.storeLangEntry (fun _ => []) [c5Row] (cs "f") (cs "o")
          (cs "u") (cs "en") (cs "Bye") (cs "el") none 0 1 none).1
        (cs "f") (cs "o") (cs "u") (cs "en") (cs "Bye") (cs "el") none 0 1 none
      = ((HybridTM.storeLangEntry (fun _ => []) [c5Row] (cs "f") (cs "o")
          (cs "u") (cs "en") (cs "Bye") (cs "el") none 0 1 none).1, 0) :=
  ⟨(claimC5_upsert_idempotent (fun _ => []) [c5Row] (cs "f") (cs "o") (cs "u")
      (cs "en") (cs "Hi") (cs "el") none 0 1 none).1 (by decide),
    (claimC5_upsert_idempotent (fun _ => []) [c5Row] (cs "f") (cs "o") (cs "u")
      (cs "en") (cs "Bye") (cs "el") none 0 1 none).2.1 (by decide),
    (claimC5_upsert_idempotent (fun _ => []) [c5Row] (cs "f") (cs "o") (cs "u")
      (cs "en") (cs "Bye") (cs "el") none 0 1 none).2.2⟩

namespace HybridTM

/-- Modelled from the spec: the `contains(pureText, fragment)` predicate of
the concordance where-clause is compiled and evaluated by the external vector
store, not by code of this repository; the spec fixes its case policy as
case-insensitive substring. -/
def containsCI (hay needle : Str) : Bool :=
  decide (jsToLower needle <:+: jsToLower hay)

/-- The initial fragment query of `concordanceSearch` (hybridtm.ts lines
456-466): rows of the requested language whose `pureText` satisfies the
store's `contains` predicate — limited to `limit` rows by the query itself. -/
def fragmentEntries (containsSem : Str → Str → Bool) (table : List LangEntry)
    (language fragment : Str) (limit : ℕ) : List LangEntry :=
  (table.filter (fun e => decide (e.language = language) &&
    containsSem e.pureText fragment)).take limit

end HybridTM

/-- Two rows matching the same fragment, used against C7. -/
def c7RowA : HybridTM.LangEntry :=
  ⟨cs "a", cs "en", cs "xy", [], [], [], [], [], 0, 1,
    HybridTM.emptyMetadata, none⟩

def c7RowB : HybridTM.LangEntry :=
  ⟨cs "b", cs "en", cs "xy", [], [], [], [], [], 0, 1,
    HybridTM.emptyMetadata, none⟩

/-- C7 counterexample: with two matching rows and `limit = 1`, the fragment
query does not select every entry matching the predicate — the limit is
applied to the very first scan, before metadata filtering and descriptor
expansion. -/
theorem claimC7_counterexample :
    HybridTM.fragmentEntries HybridTM.containsCI [c7RowA, c7RowB] (cs "en")
        (cs "X") 1 ≠
      ([c7RowA, c7RowB]).filter (fun e => decide (e.language = cs "en") &&
        HybridTM.containsCI e.pureText (cs "X")) := by decide

/-- C7 (amended): before metadata filtering and descriptor expansion,
`concordanceSearch` selects the first `limit` entries (in row order) whose
language equals the given language and whose `pureText` satisfies the store's
`contains` predicate (spec-modelled as case-insensitive substring): every
selected entry satisfies the predicate, the selection is exactly the
predicate's extension whenever that extension fits within `limit`, and never
exceeds `limit` rows. -/
theorem claimC7_amended_concordance_selection (containsSem : Str → Str → Bool)
    (table : List HybridTM.LangEntry) (language fragment : Str) (limit : ℕ) :
    (∀ e ∈ HybridTM.fragmentEntries containsSem table language fragment limit,
      e.language = language ∧ containsSem e.pureText fragment = true) ∧
    ((table.filter (fun e => decide (e.language = language) &&
        containsSem e.pureText fragment)).length ≤ limit →
      HybridTM.fragmentEntries containsSem table language fragment limit =
        table.filter (fun e => decide (e.language = language) &&
          containsSem e.pureText fragment)) ∧
    (HybridTM.fragmentEntries containsSem table language fragment limit).length
      ≤ limit := by
  refine ⟨?_, ?_, ?_⟩
  · intro e he
    have he2 := List.mem_of_mem_take he
    rw [List.mem_filter] at he2
    have hb := he2.2
    rw [Bool.and_eq_true] at hb
    exact ⟨of_decide_eq_true hb.1, hb.2⟩
  · intro hlen
    unfold HybridTM.fragmentEntries
    exact List.take_of_length_le hlen
  · unfold HybridTM.fragmentEntries
    exact List.length_take_le _ _

/-- Witness for the amended C7 with a limit large enough to keep every
matching row. -/
theorem claimC7_witness :
    HybridTM.fragmentEntries HybridTM.containsCI [c7RowA, c7RowB] (cs "en")
        (cs "X") 100 =
      ([c7RowA, c7RowB]).filter (fun e => decide (e.language = cs "en") &&
        HybridTM.containsCI e.pureText (cs "X")) :=
  (claimC7_amended_concordance_selection HybridTM.containsCI [c7RowA, c7RowB]
    (cs "en") (cs "X") 100).2.1 (by decide)

namespace BatchImporter

/-- The line loop and final flush of `BatchImporter.import`
(batchImporter.ts lines 33-131). `parseLine` abstracts
`JSON.parse` + rehydration (`none` when the line throws and is skipped),
`storeBatch` abstracts `tm.storeBatchEntries` (which may throw), and the
returned boolean records whether `cleanup()` deleted the JSONL temp file:
the code reaches `cleanup()` only after a fully successful run, while a
`storeBatchEntries` throw propagates through the `catch` without cleanup. -/
def importRun {π ε : Type} (parseLine : Str → Option π)
    (storeBatch : List π → Except ε Unit) (batchSize : ℕ) :
    List Str → List π → Except ε Unit × Bool
  | [], batch =>
    if 0 < batch.length then
      match storeBatch batch with
      | Except.error e => (Except.error e, false)
      | Except.ok _ => (Except.ok (), true)
    else (Except.ok (), true)
  | line :: rest, batch =>
    if jsTrim line = [] then importRun parseLine storeBatch batchSize rest batch
    else
      match parseLine line with
      | none => importRun parseLine storeBatch batchSize rest batch
      | some entry =>
        if batchSize ≤ (batch ++ [entry]).length then
          match storeBatch (batch ++ [entry]) with
          | Except.error e => (Except.error e, false)
          | Except.ok _ => importRun parseLine storeBatch batchSize rest []
        else importRun parseLine storeBatch batchSize rest (batch ++ [entry])

/-- `BatchImporter.import` starts with an empty pending batch. -/
def batchImport {π ε : Type} (parseLine : Str → Option π)
    (storeBatch : List π → Except ε Unit) (batchSize : ℕ) (lines : List Str) :
    Except ε Unit × Bool :=
  importRun parseLine storeBatch batchSize lines []

end BatchImporter

/-- C9: when a batch upsert throws during the final flush, the import
propagates the error WITHOUT deleting the JSONL temp file — `cleanup()` is
called only on the success path (there is no `finally`). The first conjunct
evaluates the importer at such a failing input; the second shows the temp
file is deleted exactly when the import succeeds. -/
theorem claimC9_cleanup_only_on_success :
    (BatchImporter.batchImport (fun _ => some ())
        (fun _ => (Except.error (cs "batch failed") : Except Str Unit)) 1000
        [cs "row"] = (Except.error (cs "batch failed"), false)) ∧
    (∀ {π ε : Type} (parseLine : Str → Option π)
        (storeBatch : List π → Except ε Unit) (batchSize : ℕ)
        (lines : List Str) (batch : List π),
      (BatchImporter.importRun parseLine storeBatch batchSize lines batch).2
          = true ↔
        (BatchImporter.importRun parseLine storeBatch batchSize lines
          batch).1.isOk = true) := by
  constructor
  · rfl
  · intro π ε parseLine storeBatch batchSize lines
    induction lines with
    | nil =>
      intro batch
      unfold BatchImporter.importRun
      split
      · cases hs : storeBatch batch with
        | error e => simp [hs, Except.isOk, Except.toBool]
        | ok u => simp [hs, Except.isOk, Except.toBool]
      · simp [Except.isOk, Except.toBool]
    | cons line rest ih =>
      intro batch
      unfold BatchImporter.importRun
      split
      · exact ih batch
      · cases hp : parseLine line with
        | none => exact ih batch
        | some entry =>
          simp only
          split
          · cases hs : storeBatch (batch ++ [entry]) with
            | error e => simp [hs, Except.isOk, Except.toBool]
            | ok u =>
              simp only [hs]
              exact ih []
          · exact ih (batch ++ [entry])
